import Mathlib

/-!
# A verification development for the `writablefs` repository

This file gives a shallow embedding, in Lean 4, of the core of the
`bucket-sailor/writablefs` Go repository: the path/key mapper, the S3-backed
writable filesystem (open-file registry, staging files, handles, sync/close),
the directory filesystem used for staging (`dirfs`), the extended-attribute
reconciler, the archive pipeline's tar-entry emission, and the `Sub`
path-prefix adapter.

Modelling conventions:

* Go strings are modelled as `List Char` (`GoStr`); all the Go standard
  library string/path functions used by the repository (`path.Clean`,
  `path.Dir`, `path.Base`, `strings.TrimPrefix`, `strings.TrimSuffix`,
  `strings.HasPrefix`, `strings.HasSuffix`, `strings.ToLower` restricted to
  ASCII, byte-wise lexicographic comparison) are re-implemented faithfully on
  that representation.
* Byte buffers are `List Nat`.
* The object store and the staging store are association lists from keys to
  byte contents; the S3 listing semantics (lexicographically sorted keys,
  common-prefix collapsing for non-recursive lists, `StartAfter`) is modelled
  explicitly.
* Stateful code becomes explicit state passing in the `Except` monad; a Go
  `nil`-pointer dereference or an abstracted collaborator failure is an
  explicit error value.
-/

/-- Go strings, as lists of characters. -/
abbrev GoStr := List Char

/-- Byte buffers. -/
abbrev Bytes := List Nat

namespace GoLib

/-- `strings.HasPrefix` (is `pre` a prefix of `s`?). -/
def goHasPref : GoStr → GoStr → Bool
  | _, [] => true
  | [], _ :: _ => false
  | c :: cs, p :: ps => c = p && goHasPref cs ps

/-- `strings.HasSuffix`. -/
def goHasSuff (s suf : GoStr) : Bool :=
  goHasPref s.reverse suf.reverse

/-- `strings.TrimPrefix`: removes `pre` from the front of `s` if present. -/
def goTrimPref (s pre : GoStr) : GoStr :=
  if goHasPref s pre then s.drop pre.length else s

/-- `strings.TrimSuffix`: removes `suf` from the end of `s` if present. -/
def goTrimSuff (s suf : GoStr) : GoStr :=
  if goHasSuff s suf then s.take (s.length - suf.length) else s

/-- ASCII `strings.ToLower` (the repository only uses ASCII attribute names). -/
def goToLower (s : GoStr) : GoStr :=
  s.map fun c => if 'A' ≤ c ∧ c ≤ 'Z' then Char.ofNat (c.toNat + 32) else c

/-- Byte-wise (Go `<=` on strings) lexicographic comparison. -/
def leStr : GoStr → GoStr → Bool
  | [], _ => true
  | _ :: _, [] => false
  | a :: as, b :: bs =>
    if a.toNat < b.toNat then true
    else if b.toNat < a.toNat then false
    else leStr as bs

/-- Byte-wise (Go `<` on strings) strict lexicographic comparison. -/
def ltStr : GoStr → GoStr → Bool
  | [], [] => false
  | [], _ :: _ => true
  | _ :: _, [] => false
  | a :: as, b :: bs =>
    if a.toNat < b.toNat then true
    else if b.toNat < a.toNat then false
    else ltStr as bs

theorem leStr_total : ∀ a b : GoStr, leStr a b = true ∨ leStr b a = true
  | [], _ => Or.inl rfl
  | _ :: _, [] => Or.inr rfl
  | a :: as, b :: bs => by
    simp only [leStr]
    rcases Nat.lt_trichotomy a.toNat b.toNat with h | h | h
    · simp [h]
    · simp [h, Nat.lt_irrefl]
      exact leStr_total as bs
    · simp [h, Nat.lt_asymm h]

theorem leStr_trans : ∀ a b c : GoStr,
    leStr a b = true → leStr b c = true → leStr a c = true
  | [], _, _, _, _ => rfl
  | _ :: _, [], _, h, _ => by simp [leStr] at h
  | _ :: _, _ :: _, [], _, h => by simp [leStr] at h
  | a :: as, b :: bs, c :: cs, h1, h2 => by
    simp only [leStr] at h1 h2 ⊢
    by_cases hab : a.toNat < b.toNat
    · by_cases hbc : b.toNat < c.toNat
      · simp [Nat.lt_trans hab hbc]
      · by_cases hcb : c.toNat < b.toNat
        · rw [if_neg hbc, if_pos hcb] at h2
          exact absurd h2 (by simp)
        · have hac : a.toNat < c.toNat := by omega
          simp [hac]
    · by_cases hba : b.toNat < a.toNat
      · rw [if_neg hab, if_pos hba] at h1
        exact absurd h1 (by simp)
      · by_cases hbc : b.toNat < c.toNat
        · have hac : a.toNat < c.toNat := by omega
          simp [hac]
        · by_cases hcb : c.toNat < b.toNat
          · rw [if_neg hbc, if_pos hcb] at h2
            exact absurd h2 (by simp)
          · have h1' : leStr as bs = true := by rwa [if_neg hab, if_neg hba] at h1
            have h2' : leStr bs cs = true := by rwa [if_neg hbc, if_neg hcb] at h2
            have hac : ¬ a.toNat < c.toNat := by omega
            have hca : ¬ c.toNat < a.toNat := by omega
            rw [if_neg hac, if_neg hca]
            exact leStr_trans as bs cs h1' h2'

/-- Splitting a string on `'/'` (as `strings.Split(s, "/")` does). -/
def consHead (c : Char) : List GoStr → List GoStr
  | [] => [[c]]
  | s :: ss => (c :: s) :: ss

def splitSlash : GoStr → List GoStr
  | [] => [[]]
  | c :: rest =>
    if c = '/' then [] :: splitSlash rest
    else consHead c (splitSlash rest)

/-- Joining path elements with `'/'`. -/
def joinSlash : List GoStr → GoStr
  | [] => []
  | [s] => s
  | s :: ss => s ++ '/' :: joinSlash ss

theorem splitSlash_ne_nil : ∀ s : GoStr, splitSlash s ≠ []
  | [] => by simp [splitSlash]
  | c :: rest => by
    simp only [splitSlash]
    split
    · simp
    · cases h : splitSlash rest <;> simp [consHead]

theorem joinSlash_splitSlash : ∀ s : GoStr, joinSlash (splitSlash s) = s
  | [] => rfl
  | c :: rest => by
    simp only [splitSlash]
    split
    · rename_i h
      subst h
      cases h2 : splitSlash rest with
      | nil => exact absurd h2 (splitSlash_ne_nil rest)
      | cons x xs =>
        simp only [joinSlash]
        have := joinSlash_splitSlash rest
        rw [h2] at this
        simp [this]
    · cases h2 : splitSlash rest with
      | nil => exact absurd h2 (splitSlash_ne_nil rest)
      | cons x xs =>
        have := joinSlash_splitSlash rest
        rw [h2] at this
        cases xs with
        | nil => simp only [consHead, joinSlash] at *; simp [this]
        | cons y ys => simp only [consHead, joinSlash] at *; simp [this]

theorem splitSlash_append (a b : GoStr) :
    splitSlash (a ++ '/' :: b) = splitSlash a ++ splitSlash b := by
  induction a with
  | nil => simp [splitSlash]
  | cons c cs ih =>
    by_cases hc : c = '/'
    · subst hc
      simp [splitSlash, ih]
    · have h1 : splitSlash (c :: (cs ++ '/' :: b)) = consHead c (splitSlash (cs ++ '/' :: b)) := by
        simp [splitSlash, hc]
      have h2 : splitSlash (c :: cs) = consHead c (splitSlash cs) := by
        simp [splitSlash, hc]
      rw [List.cons_append, h1, h2, ih]
      cases h : splitSlash cs with
      | nil => exact absurd h (splitSlash_ne_nil cs)
      | cons x xs => simp [consHead]

/-- Every element produced by `splitSlash` is slash-free. -/
theorem splitSlash_no_slash : ∀ (s : GoStr) (e : GoStr), e ∈ splitSlash s → '/' ∉ e
  | [], e, he => by
    simp [splitSlash] at he
    simp [he]
  | c :: rest, e, he => by
    simp only [splitSlash] at he
    split at he
    · rcases List.mem_cons.mp he with h | h
      · simp [h]
      · exact splitSlash_no_slash rest e h
    · rename_i hc
      cases h2 : splitSlash rest with
      | nil => exact absurd h2 (splitSlash_ne_nil rest)
      | cons x xs =>
        rw [h2] at he
        simp only [consHead] at he
        rcases List.mem_cons.mp he with h | h
        · subst h
          intro hmem
          rcases List.mem_cons.mp hmem with h | h
          · exact hc h.symm
          · exact splitSlash_no_slash rest x (h2 ▸ List.mem_cons_self x xs) h
        · exact splitSlash_no_slash rest e (h2 ▸ List.mem_cons_of_mem x h)

/-- `splitSlash` of a slash-free string is that single element. -/
theorem splitSlash_eq_single : ∀ (s : GoStr), '/' ∉ s → splitSlash s = [s]
  | [], _ => rfl
  | c :: cs, h => by
    have hc : ¬ c = '/' := fun hh => h (by simp [hh])
    have hcs : '/' ∉ cs := fun hh => h (List.mem_cons_of_mem _ hh)
    simp only [splitSlash, if_neg hc, splitSlash_eq_single cs hcs, consHead]

/-- `splitSlash` of a join of a nonempty list of slash-free elements recovers the list. -/
theorem splitSlash_joinSlash : ∀ (l : List GoStr), l ≠ [] → (∀ e ∈ l, '/' ∉ e) →
    splitSlash (joinSlash l) = l
  | [], h, _ => absurd rfl h
  | [s], _, hfree => by
    simpa [joinSlash] using splitSlash_eq_single s (hfree s (by simp))
  | s :: t :: rest, _, hfree => by
    have hjoin : joinSlash (s :: t :: rest) = s ++ '/' :: joinSlash (t :: rest) := rfl
    rw [hjoin, splitSlash_append, splitSlash_eq_single s (hfree s (by simp)),
      splitSlash_joinSlash (t :: rest) (by simp)
        (fun e he => hfree e (List.mem_cons_of_mem s he))]
    simp

/-!
## `path.Clean` (Go standard library, lexical path cleaning)

Implemented as the standard stack algorithm: split the path on `'/'`, process
each element against a stack (represented head-innermost), then render.  This
is the well-known functional specification of Go's `Clean` buffer algorithm.
-/

/-- Process one path element against the stack (head = most recent segment).
`rooted` records whether the whole path is absolute. -/
def pushElem (rooted : Bool) (stk : List GoStr) (e : GoStr) : List GoStr :=
  if e = [] ∨ e = ['.'] then stk
  else if e = ['.', '.'] then
    match stk with
    | top :: rest => if top = ['.', '.'] then e :: stk else rest
    | [] => if rooted then [] else [e]
  else e :: stk

/-- Process a list of path elements against a stack. -/
def processElems (rooted : Bool) (stk : List GoStr) (es : List GoStr) : List GoStr :=
  es.foldl (pushElem rooted) stk

/-- Render a processed stack back into a path string. -/
def renderClean (rooted : Bool) (stk : List GoStr) : GoStr :=
  let segs := stk.reverse
  if rooted then '/' :: joinSlash segs
  else if segs = [] then ['.'] else joinSlash segs

/-- Is the path absolute (starts with `'/'`)? -/
def isRooted : GoStr → Bool
  | [] => false
  | c :: _ => c = '/'

/-- Go `path.Clean`. -/
def goClean (s : GoStr) : GoStr :=
  if s = [] then ['.']
  else renderClean (isRooted s) (processElems (isRooted s) [] (splitSlash s))

/-- The portion of a path up to and including the final `'/'`
(Go `path.Split`'s first component). -/
def dirPart (s : GoStr) : GoStr :=
  (s.reverse.dropWhile (· ≠ '/')).reverse

/-- Go `path.Dir`. -/
def goDir (s : GoStr) : GoStr :=
  goClean (dirPart s)

/-- Go `path.Base`. -/
def goBase (s : GoStr) : GoStr :=
  if s = [] then ['.']
  else
    let t := (s.reverse.dropWhile (· = '/')).reverse
    if t = [] then ['/']
    else (t.reverse.takeWhile (· ≠ '/')).reverse

/-- Go `filepath.Join` restricted to two components, on a Unix separator:
join the non-empty components with `'/'` and clean the result. -/
def goJoin (a b : GoStr) : GoStr :=
  match a, b with
  | [], [] => []
  | [], b => goClean b
  | a, [] => goClean a
  | a, b => goClean (a ++ '/' :: b)

example : goClean "a/b/..".toList = "a".toList := by decide
example : goClean "".toList = ".".toList := by decide
example : goClean "/../a".toList = "/a".toList := by decide
example : goClean "a/../..".toList = "..".toList := by decide
example : goClean "//a//b///".toList = "/a/b".toList := by decide
example : goClean "./x".toList = "x".toList := by decide
example : goDir "a/b".toList = "a".toList := by decide
example : goDir "a".toList = ".".toList := by decide
example : goDir "/a".toList = "/".toList := by decide
example : goBase "a/b/".toList = "b".toList := by decide
example : goBase "///".toList = "/".toList := by decide
example : goJoin "a".toList "../b".toList = "b".toList := by decide

end GoLib

namespace S3FS

open GoLib

/-!
## Key mapper (`s3fs/s3.go`: `toKey`, `parentKey`)
-/

/-- `toKey(path, isDir)` from `s3.go`: clean the path, map `"."` to the empty
key, strip a leading slash, and append a trailing slash for directories. -/
def toKey (path : GoStr) (isDir : Bool) : GoStr :=
  let key := goClean path
  let key := if key = ['.'] then [] else key
  let key := goTrimPref key ['/']
  if isDir ∧ key ≠ [] ∧ ¬ goHasSuff key ['/'] then key ++ ['/'] else key

/-- `parentKey(key)` from `s3.go`. -/
def parentKey (key : GoStr) : GoStr :=
  toKey (goDir (goTrimSuff key ['/'])) true

example : toKey "/a/b".toList false = "a/b".toList := by decide
example : toKey "a/b".toList true = "a/b/".toList := by decide
example : toKey ".".toList true = "".toList := by decide
example : parentKey "a/b".toList = "a/".toList := by decide
example : parentKey "a".toList = "".toList := by decide

end S3FS

/-!
## Association lists (Go maps with deterministic representation)
-/

section AList

variable {κ : Type} {α : Type} [DecidableEq κ]

/-- Look up the (first) binding of a key. -/
def lookupKey : List (κ × α) → κ → Option α
  | [], _ => none
  | (k, v) :: rest, q => if k = q then some v else lookupKey rest q

/-- Insert or replace the binding of a key. -/
def insertKey : List (κ × α) → κ → α → List (κ × α)
  | [], q, v => [(q, v)]
  | (k, w) :: rest, q, v => if k = q then (q, v) :: rest else (k, w) :: insertKey rest q v

/-- Remove all bindings of a key (Go map `delete`). -/
def eraseKey : List (κ × α) → κ → List (κ × α)
  | [], _ => []
  | (k, w) :: rest, q => if k = q then eraseKey rest q else (k, w) :: eraseKey rest q

@[simp]
theorem lookupKey_nil (q : κ) : lookupKey ([] : List (κ × α)) q = none := rfl

@[simp]
theorem lookupKey_insertKey_self (l : List (κ × α)) (q : κ) (v : α) :
    lookupKey (insertKey l q v) q = some v := by
  induction l with
  | nil => simp [insertKey, lookupKey]
  | cons p rest ih =>
    obtain ⟨k, w⟩ := p
    by_cases h : k = q
    · simp [insertKey, h, lookupKey]
    · simp [insertKey, h, lookupKey, ih]

theorem lookupKey_insertKey_ne (l : List (κ × α)) (q q' : κ) (v : α) (h : q ≠ q') :
    lookupKey (insertKey l q v) q' = lookupKey l q' := by
  induction l with
  | nil => simp [insertKey, lookupKey, h]
  | cons p rest ih =>
    obtain ⟨k, w⟩ := p
    by_cases hk : k = q
    · subst hk
      simp [insertKey, lookupKey, h]
    · simp [insertKey, hk, lookupKey, ih]

@[simp]
theorem insertKey_insertKey_self (l : List (κ × α)) (q : κ) (v w : α) :
    insertKey (insertKey l q v) q w = insertKey l q w := by
  induction l with
  | nil => simp [insertKey]
  | cons p rest ih =>
    obtain ⟨k, u⟩ := p
    by_cases h : k = q
    · simp [insertKey, h]
    · simp [insertKey, h, ih]

@[simp]
theorem eraseKey_insertKey_self (l : List (κ × α)) (q : κ) (v : α) :
    eraseKey (insertKey l q v) q = eraseKey l q := by
  induction l with
  | nil => simp [insertKey, eraseKey]
  | cons p rest ih =>
    obtain ⟨k, u⟩ := p
    by_cases h : k = q
    · simp [insertKey, h, eraseKey]
    · simp [insertKey, h, eraseKey, ih]

@[simp]
theorem lookupKey_eraseKey_self (l : List (κ × α)) (q : κ) :
    lookupKey (eraseKey l q) q = none := by
  induction l with
  | nil => rfl
  | cons p rest ih =>
    obtain ⟨k, w⟩ := p
    by_cases h : k = q
    · simp [eraseKey, h, ih]
    · simp [eraseKey, h, lookupKey, ih]

theorem lookupKey_none_of_not_mem {l : List (κ × α)} {k : κ}
    (h : k ∉ l.map Prod.fst) : lookupKey l k = none := by
  induction l with
  | nil => rfl
  | cons p rest ih =>
    obtain ⟨k0, v⟩ := p
    simp only [List.map_cons, List.mem_cons, not_or] at h
    simp only [lookupKey]
    rw [if_neg (fun hh => h.1 hh.symm)]
    exact ih h.2

theorem mem_keys_insertKey {l : List (κ × α)} {k q : κ} {v : α} :
    q ∈ (insertKey l k v).map Prod.fst ↔ q = k ∨ q ∈ l.map Prod.fst := by
  induction l with
  | nil => simp [insertKey]
  | cons p rest ih =>
    obtain ⟨k0, w⟩ := p
    by_cases h : k0 = k
    · subst h
      simp [insertKey]
    · simp only [insertKey, if_neg h, List.map_cons, List.mem_cons, ih]
      tauto

theorem nodupKeys_insertKey {l : List (κ × α)} {k : κ} {v : α}
    (h : (l.map Prod.fst).Nodup) : ((insertKey l k v).map Prod.fst).Nodup := by
  induction l with
  | nil => simp [insertKey]
  | cons p rest ih =>
    obtain ⟨k0, w⟩ := p
    simp only [List.map_cons, List.nodup_cons] at h
    by_cases hk : k0 = k
    · subst hk
      have h1 : insertKey ((k0, w) :: rest) k0 v = (k0, v) :: rest := by
        simp [insertKey]
      rw [h1]
      simp only [List.map_cons, List.nodup_cons]
      exact h
    · simp only [insertKey, if_neg hk, List.map_cons, List.nodup_cons]
      refine ⟨?_, ih h.2⟩
      rw [mem_keys_insertKey]
      rintro (h2 | h2)
      · exact hk h2
      · exact h.1 h2

theorem lookupKey_eraseKey_ne (l : List (κ × α)) (q q' : κ) (h : q ≠ q') :
    lookupKey (eraseKey l q) q' = lookupKey l q' := by
  induction l with
  | nil => rfl
  | cons p rest ih =>
    obtain ⟨k, w⟩ := p
    simp only [eraseKey]
    by_cases hk : k = q
    · rw [if_pos hk, ih]
      simp only [lookupKey]
      rw [if_neg (by rw [hk]; exact h)]
    · rw [if_neg hk]
      simp only [lookupKey]
      by_cases hk' : k = q'
      · rw [if_pos hk', if_pos hk']
      · rw [if_neg hk', if_neg hk', ih]

end AList

namespace S3FS

open GoLib

/-!
## The object store and its listing semantics

The bucket is a finite map from keys to byte contents.  `ListObjects` with
`Recursive: false` returns, in lexicographic order, the keys under the given
prefix with everything below the next `'/'` collapsed into a common prefix
(standard S3 semantics, which the minio client exposes as a stream).
`StartAfter` drops keys that are not strictly greater.
-/

/-- Insertion sort by Go byte-wise string order (models S3's sorted listing
and `sort.Strings`). -/
def insertStr (a : GoStr) : List GoStr → List GoStr
  | [] => [a]
  | b :: bs => if leStr a b then a :: b :: bs else b :: insertStr a bs

def sortStr : List GoStr → List GoStr
  | [] => []
  | a :: as => insertStr a (sortStr as)

/-- Collapse a key under `pre` to its common prefix at the first `'/'`
after `pre` (non-recursive listing). -/
def collapseKey (pre k : GoStr) : GoStr :=
  let rest := k.drop pre.length
  match rest.findIdx? (· = '/') with
  | some i => pre ++ rest.take (i + 1)
  | none => k

/-- The non-recursive listing: sorted, deduplicated, collapsed keys under
`pre` strictly greater than `startAfter`, limited to `maxKeys`. -/
def listNonRecursive (store : List (GoStr × Bytes)) (pre startAfter : GoStr)
    (maxKeys : Nat) : List GoStr :=
  let ks := (store.map Prod.fst).filter (fun k => goHasPref k pre)
  let ks := ks.filter (fun k => ltStr startAfter k)
  (sortStr ((ks.map (collapseKey pre)).dedup)).take maxKeys

/-- Decidable equality of `Except` results, for concrete evaluation. -/
instance {ε α : Type} [DecidableEq ε] [DecidableEq α] : DecidableEq (Except ε α) := fun a b =>
  match a, b with
  | .ok x, .ok y =>
    if h : x = y then isTrue (by rw [h])
    else isFalse (fun hh => h (by cases hh; rfl))
  | .error x, .error y =>
    if h : x = y then isTrue (by rw [h])
    else isFalse (fun hh => h (by cases hh; rfl))
  | .ok _, .error _ => isFalse (fun hh => by cases hh)
  | .error _, .ok _ => isFalse (fun hh => by cases hh)

/-- Error kinds surfaced by the model. -/
inductive Err where
  | notExist
  | permission
  | closed
  | noSuchKey
  | noSuchAttr
  | aborted
  deriving DecidableEq, Repr

/-- The part of `minio.ObjectInfo` the filesystem inspects. -/
structure FileInfoM where
  key : GoStr
  size : Nat
  deriving DecidableEq, Repr

/-- `fileInfo.IsDir` from `info.go`. -/
def fileInfoIsDir (fi : FileInfoM) : Bool :=
  fi.key = [] ∨ goHasSuff fi.key ['/']

/-- `s3FS.Stat` from `s3.go`: file-form key; empty key is the root
pseudo-entry; try `StatObject`; on NoSuchKey list the parent with
`StartAfter = key, MaxKeys = 1` and return a directory entry for the first
result whose trailing-slash-stripped key equals the queried basename. -/
def fsStat (remote : List (GoStr × Bytes)) (path : GoStr) : Except Err FileInfoM :=
  let key := toKey path false
  if key = [] then .ok ⟨[], 0⟩
  else
    match lookupKey remote key with
    | some c => .ok ⟨key, c.length⟩
    | none =>
      let lst := listNonRecursive remote (parentKey key) key 1
      match lst.find? (fun k => goTrimSuff k ['/'] = goBase (goTrimSuff key ['/'])) with
      | some k => .ok ⟨k, ((lookupKey remote k).map List.length).getD 0⟩
      | none => .error .notExist

/- Sanity checks of the model. -/
example : fsStat [("a/".toList, [])] "a".toList = .ok ⟨"a/".toList, 0⟩ := by decide
example : fsStat [("x".toList, [1, 2])] "x".toList = .ok ⟨"x".toList, 2⟩ := by decide
example : fsStat [("a/x".toList, [1])] "a".toList = .ok ⟨"a/".toList, 0⟩ := by decide
example : fsStat [] "x".toList = .error .notExist := by decide

/-!
## The file/handle core (`s3fs/file.go`, `s3fs/s3.go`)

A `file` (shared per path) holds the key, whether a staging file is open, the
dirty flag and the set of live handle ids.  The filesystem state holds the
remote bucket, the staging store (contents indexed by key), the open-file
registry (`fsys.files`) and a table of live handle records.  Handle
operations are modelled on live handles; `Close` retires the handle id, so a
retired id fails with `Err.closed` (the Go code does not guard against using
a handle after `Close`; such use is outside this model).

Staging-file cursors are not modelled: `file.WriteAt`/`ReadAt` are
cursor-independent, `file.Sync` seeks to 0 before uploading, and a fresh
staging file is either empty or filled from the object's bytes.
-/

structure FileM where
  key : GoStr
  stagingFile : Bool
  dirty : Bool
  handles : List Nat
  deriving DecidableEq, Repr

structure HandleRec where
  path : GoStr
  readOnly : Bool
  offset : Nat
  deriving DecidableEq, Repr

structure S3M where
  remote : List (GoStr × Bytes)
  staging : List (GoStr × Bytes)
  files : List (GoStr × FileM)
  handleTbl : List (Nat × HandleRec)
  nextId : Nat
  deriving DecidableEq, Repr

/-- A freshly created filesystem: empty bucket, empty staging, empty registry. -/
def initS3 : S3M := ⟨[], [], [], [], 0⟩

/-- `os.O_RDONLY` (zero on Linux — note `flag.IsSet(FlagReadOnly)` is
therefore always false, exactly as in the Go source). -/
def oRDONLY : Nat := 0
def oWRONLY : Nat := 1
def oRDWR : Nat := 2
def oCREATE : Nat := 64

/-- `FileOpenFlag.IsSet`: `f&flag != 0`. -/
def flagIsSet (f g : Nat) : Bool := f &&& g ≠ 0

/-- `WriteAt` on byte content: zero-fill any gap, overwrite in place. -/
def writeBytes (content : Bytes) (off : Nat) (p : Bytes) : Bytes :=
  content.take off ++ List.replicate (off - content.length) 0 ++ p
    ++ content.drop (off + p.length)

/-- `Truncate` on byte content: shorten, or zero-extend. -/
def truncBytes (content : Bytes) (size : Nat) : Bytes :=
  content.take size ++ List.replicate (size - content.length) 0

/-- `s3FS.OpenFile`: stat the path (creating requires `FlagCreate` when
absent), look up or create the registry `file`, then `file.newHandle`:
a non-read-only handle opens the staging file, downloading the object when it
already exists. -/
def openFile (s : S3M) (path : GoStr) (flag : Nat) : Except Err (S3M × Nat) := do
  let nonEmpty ← match fsStat s.remote path with
    | .ok _ => pure true
    | .error e =>
      if e = Err.notExist then
        if flagIsSet flag oCREATE then pure false else throw Err.notExist
      else throw e
  let f := match lookupKey s.files path with
    | some f => f
    | none => { key := toKey path false, stagingFile := false, dirty := false, handles := [] }
  let readOnly := flagIsSet flag oRDONLY
  let fStaging : FileM × List (GoStr × Bytes) ←
    if ¬ readOnly ∧ ¬ f.stagingFile then do
      let content : Bytes ←
        if nonEmpty then
          match lookupKey s.remote f.key with
          | some c => pure c
          | none => throw Err.noSuchKey
        else pure ([] : Bytes)
      pure ({ f with stagingFile := true }, insertKey s.staging f.key content)
    else pure (f, s.staging)
  let f := { fStaging.1 with handles := fStaging.1.handles ++ [s.nextId] }
  pure ({ s with
          files := insertKey s.files path f
          staging := fStaging.2
          handleTbl := insertKey s.handleTbl s.nextId ⟨path, readOnly, 0⟩
          nextId := s.nextId + 1 }, s.nextId)

/-- Resolve a live handle id to its record and its file. -/
def getLive (s : S3M) (id : Nat) : Except Err (HandleRec × FileM) :=
  match lookupKey s.handleTbl id with
  | none => .error Err.closed
  | some h =>
    match lookupKey s.files h.path with
    | none => .error Err.closed
    | some f => if id ∈ f.handles then .ok (h, f) else .error Err.closed

/-- `fileHandle.WriteAt`: permission check, then `file.WriteAt` into the
staging file; a nonzero write sets `dirty`. -/
def writeAt (s : S3M) (id : Nat) (p : Bytes) (off : Nat) : Except Err (S3M × Nat) := do
  let (h, f) ← getLive s id
  if h.readOnly then throw Err.permission
  else if ¬ f.stagingFile then throw Err.aborted
  else
    let content := writeBytes ((lookupKey s.staging f.key).getD []) off p
    let f := if p.length > 0 then { f with dirty := true } else f
    pure ({ s with
            staging := insertKey s.staging f.key content
            files := insertKey s.files h.path f }, p.length)

/-- `fileHandle.Write`: `WriteAt` at the handle cursor, advancing it. -/
def write (s : S3M) (id : Nat) (p : Bytes) : Except Err (S3M × Nat) := do
  let (h, _) ← getLive s id
  let sn ← writeAt s id p h.offset
  pure ({ sn.1 with
    handleTbl := insertKey sn.1.handleTbl id { h with offset := h.offset + sn.2 } }, sn.2)

/-- `fileHandle.Truncate` / `file.Truncate`: truncate the staging file if one
exists, and set `dirty` unconditionally. -/
def truncate (s : S3M) (id : Nat) (size : Nat) : Except Err S3M := do
  let (h, f) ← getLive s id
  if h.readOnly then throw Err.permission
  else
    let staging :=
      if f.stagingFile then
        insertKey s.staging f.key (truncBytes ((lookupKey s.staging f.key).getD []) size)
      else s.staging
    pure { s with
           staging := staging
           files := insertKey s.files h.path { f with dirty := true } }

/-- `file.Sync` (the upload half, shared by `Sync` and last-handle `Close`):
if dirty, upload the staging bytes to the bucket and clear `dirty`.
A nil staging file would be a Go nil dereference, modelled as `Err.aborted`. -/
def fileSyncInner (s : S3M) (path : GoStr) (f : FileM) : Except Err (S3M × FileM) :=
  if f.dirty then
    if ¬ f.stagingFile then .error Err.aborted
    else
      let content := (lookupKey s.staging f.key).getD []
      let f := { f with dirty := false }
      .ok ({ s with
             remote := insertKey s.remote f.key content
             files := insertKey s.files path f }, f)
  else .ok (s, f)

/-- `fileHandle.Sync`. -/
def sync (s : S3M) (id : Nat) : Except Err S3M := do
  let (h, f) ← getLive s id
  let sf ← fileSyncInner s h.path f
  pure sf.1

/-- `file.Close`: if no handles remain, flush (if dirty), then close and
remove the staging file.  Note the `file` is NOT removed from the registry. -/
def fileClose (s : S3M) (path : GoStr) (f : FileM) : Except Err S3M :=
  if f.handles = [] then
    match fileSyncInner s path f with
    | .error e => .error e
    | .ok sf =>
      if sf.2.stagingFile then
        .ok { sf.1 with
              staging := eraseKey sf.1.staging sf.2.key
              files := insertKey sf.1.files path { sf.2 with stagingFile := false } }
      else
        .ok sf.1
  else
    .ok s

/-- `fileHandle.Close`: retire the handle from the handle set and the handle
table, then run `file.Close`. -/
def closeHandle (s : S3M) (id : Nat) : Except Err S3M := do
  let (h, f) ← getLive s id
  let f := { f with handles := f.handles.erase id }
  let s := { s with
             files := insertKey s.files h.path f
             handleTbl := eraseKey s.handleTbl id }
  fileClose s h.path f

/-- Reading a handle to EOF (a loop of `fileHandle.Read` calls): staged files
are served from the staging store at the handle cursor, otherwise a ranged
`GetObject` streams the object from the cursor to the end. -/
def readAll (s : S3M) (id : Nat) : Except Err Bytes := do
  let (h, f) ← getLive s id
  if f.stagingFile then
    pure (((lookupKey s.staging f.key).getD []).drop h.offset)
  else
    match lookupKey s.remote f.key with
    | some c => pure (c.drop h.offset)
    | none => throw Err.noSuchKey

/-- The round trip of claim C1: create/open read-write, write, sync, close;
reopen read-only and read to EOF. -/
def roundTrip (s : S3M) (path : GoStr) (buf : Bytes) : Except Err Bytes := do
  let sh ← openFile s path (oRDWR ||| oCREATE)
  let sn ← write sh.1 sh.2 buf
  let s2 ← sync sn.1 sh.2
  let s3 ← closeHandle s2 sh.2
  let sh2 ← openFile s3 path oRDONLY
  readAll sh2.1 sh2.2

/- Sanity check: the round trip on a fresh path returns the buffer. -/
example : roundTrip initS3 "f".toList [9, 7] = .ok [9, 7] := by decide
/- Sanity check: with a longer pre-existing object the tail survives. -/
example : roundTrip ⟨[("f".toList, [1, 2])], [], [], [], 0⟩ "f".toList [9] = .ok [9, 2] := by
  decide
/- Sanity check: an empty write leaves nothing to create. -/
example : roundTrip initS3 "f".toList [] = .error .notExist := by decide

/-!
### Operation traces

An `Op` is one interface call; `applyOp` runs it, keeping the prior state
when the call fails (a failed call performs no state change in the model).
-/

inductive Op where
  | openF (path : GoStr) (flag : Nat)
  | write (id : Nat) (p : Bytes)
  | writeAt (id : Nat) (p : Bytes) (off : Nat)
  | truncate (id : Nat) (size : Nat)
  | sync (id : Nat)
  | close (id : Nat)
  | read (id : Nat)
  deriving DecidableEq, Repr

def applyOp (s : S3M) : Op → S3M
  | .openF path flag => match openFile s path flag with | .ok sh => sh.1 | .error _ => s
  | .write id p => match write s id p with | .ok sn => sn.1 | .error _ => s
  | .writeAt id p off => match writeAt s id p off with | .ok sn => sn.1 | .error _ => s
  | .truncate id size => match truncate s id size with | .ok s' => s' | .error _ => s
  | .sync id => match sync s id with | .ok s' => s' | .error _ => s
  | .close id => match closeHandle s id with | .ok s' => s' | .error _ => s
  | .read _ => s

def applyOps (s : S3M) (ops : List Op) : S3M := ops.foldl applyOp s

/-- The operations that claim C3 is about: `Write`, `WriteAt`, `Truncate`. -/
def Op.isMut : Op → Bool
  | .write _ _ => true
  | .writeAt _ _ _ => true
  | .truncate _ _ => true
  | _ => false

theorem getLive_ok {s : S3M} {id : Nat} {h : HandleRec} {f : FileM}
    (hg : getLive s id = .ok (h, f)) :
    lookupKey s.files h.path = some f ∧ id ∈ f.handles := by
  unfold getLive at hg
  split at hg
  · cases hg
  · rename_i hr h1
    split at hg
    · cases hg
    · rename_i g h2
      split at hg
      · rename_i hmem
        cases hg
        exact ⟨h2, hmem⟩
      · cases hg

/-- `OpenFile` never touches the bucket (it only stats and downloads). -/
theorem openFile_remote {s : S3M} {path : GoStr} {flag : Nat} {s' : S3M} {id : Nat}
    (hres : openFile s path flag = .ok (s', id)) : s'.remote = s.remote := by
  unfold openFile at hres
  simp only [bind, Except.bind, pure, Except.pure] at hres
  repeat' split at hres
  all_goals (try cases hres)
  all_goals rfl

theorem writeAt_remote {s : S3M} {id : Nat} {p : Bytes} {off : Nat} {s' : S3M} {n : Nat}
    (hres : writeAt s id p off = .ok (s', n)) : s'.remote = s.remote := by
  unfold writeAt at hres
  simp only [bind, Except.bind, pure, Except.pure] at hres
  repeat' split at hres
  all_goals (try cases hres)
  all_goals rfl

theorem write_remote {s : S3M} {id : Nat} {p : Bytes} {s' : S3M} {n : Nat}
    (hres : write s id p = .ok (s', n)) : s'.remote = s.remote := by
  unfold write at hres
  simp only [bind, Except.bind, pure, Except.pure] at hres
  split at hres
  · cases hres
  · split at hres
    · cases hres
    · rename_i sn hw
      cases hres
      have h5 : sn.1.remote = s.remote := writeAt_remote hw
      exact h5

theorem truncate_remote {s : S3M} {id : Nat} {size : Nat} {s' : S3M}
    (hres : truncate s id size = .ok s') : s'.remote = s.remote := by
  unfold truncate at hres
  simp only [bind, Except.bind, pure, Except.pure] at hres
  repeat' split at hres
  all_goals (try cases hres)
  all_goals rfl

/-!
### The staging invariants (claims C4 and C9)
-/

/-- `O_RDONLY` is zero, so `flag.IsSet(FlagReadOnly)` is false for every
flag value: every handle the Go code creates is treated as writable. -/
theorem flagIsSet_rdonly (flag : Nat) : flagIsSet flag oRDONLY = false := by
  simp [flagIsSet, oRDONLY]

/-- The invariant of a single registry `file`: a live handle or a set dirty
flag implies an open staging file. -/
def FileInv (f : FileM) : Prop :=
  (f.handles ≠ [] → f.stagingFile = true) ∧ (f.dirty = true → f.stagingFile = true)

/-- The registry invariant. -/
def FilesInv (l : List (GoStr × FileM)) : Prop :=
  ∀ p f, lookupKey l p = some f → FileInv f

theorem FilesInv_insert {l : List (GoStr × FileM)} (hl : FilesInv l) {p : GoStr} {f : FileM}
    (hf : FileInv f) : FilesInv (insertKey l p f) := by
  intro q g hq
  by_cases h : p = q
  · subst h
    rw [lookupKey_insertKey_self] at hq
    cases hq
    exact hf
  · rw [lookupKey_insertKey_ne _ _ _ _ h] at hq
    exact hl q g hq

theorem openFile_inv {s : S3M} {path : GoStr} {flag : Nat} {s' : S3M} {id : Nat}
    (hres : openFile s path flag = .ok (s', id)) (hl : FilesInv s.files) :
    FilesInv s'.files := by
  unfold openFile at hres
  simp only [bind, Except.bind, pure, Except.pure, flagIsSet_rdonly] at hres
  repeat' split at hres
  all_goals (try cases hres)
  all_goals simp_all [FilesInv_insert hl, FileInv]

theorem writeAt_inv {s : S3M} {id : Nat} {p : Bytes} {off : Nat} {s' : S3M} {n : Nat}
    (hres : writeAt s id p off = .ok (s', n)) (hl : FilesInv s.files) :
    FilesInv s'.files := by
  unfold writeAt at hres
  simp only [bind, Except.bind, pure, Except.pure] at hres
  split at hres
  · cases hres
  · rename_i hf hg
    obtain ⟨hlook, hmem⟩ := getLive_ok hg
    have hinv := hl _ _ hlook
    split at hres
    · cases hres
    · split at hres
      · cases hres
      · rename_i hstage
        cases hres
        apply FilesInv_insert hl
        constructor <;> (intro _ ; split <;> simp_all [FileInv])

theorem write_inv {s : S3M} {id : Nat} {p : Bytes} {s' : S3M} {n : Nat}
    (hres : write s id p = .ok (s', n)) (hl : FilesInv s.files) :
    FilesInv s'.files := by
  unfold write at hres
  simp only [bind, Except.bind, pure, Except.pure] at hres
  split at hres
  · cases hres
  · split at hres
    · cases hres
    · rename_i sn hw
      cases hres
      have h5 : FilesInv sn.1.files := writeAt_inv hw hl
      exact h5

theorem truncate_inv {s : S3M} {id : Nat} {size : Nat} {s' : S3M}
    (hres : truncate s id size = .ok s') (hl : FilesInv s.files) :
    FilesInv s'.files := by
  unfold truncate at hres
  simp only [bind, Except.bind, pure, Except.pure] at hres
  split at hres
  · cases hres
  · rename_i hf hg
    obtain ⟨hlook, hmem⟩ := getLive_ok hg
    have hinv := hl _ _ hlook
    have hstage : hf.2.stagingFile = true :=
      hinv.1 (List.ne_nil_of_mem hmem)
    split at hres
    · cases hres
    · cases hres
      apply FilesInv_insert hl
      exact ⟨fun _ => hstage, fun _ => hstage⟩

/-- A closed-out file (no handles, clean) trivially satisfies the invariant
once its staging flag is cleared. -/
theorem FileInv_close {f : FileM} (hh : f.handles = []) (hd : f.dirty = false) :
    FileInv { f with stagingFile := false } := by
  constructor <;> simp [hh, hd]

theorem fileSyncInner_inv {s : S3M} {path : GoStr} {f : FileM} {s' : S3M} {f' : FileM}
    (hres : fileSyncInner s path f = .ok (s', f')) (hl : FilesInv s.files)
    (hf : FileInv f) :
    FilesInv s'.files ∧ f'.handles = f.handles ∧
      f'.stagingFile = f.stagingFile ∧ f'.dirty = false := by
  unfold fileSyncInner at hres
  split at hres
  · split at hres
    · cases hres
    · rename_i hdirty hstage
      cases hres
      refine ⟨FilesInv_insert hl ?_, rfl, rfl, rfl⟩
      simp_all [FileInv]
  · rename_i hdirty
    cases hres
    exact ⟨hl, rfl, rfl, by simpa using hdirty⟩

theorem sync_inv {s : S3M} {id : Nat} {s' : S3M}
    (hres : sync s id = .ok s') (hl : FilesInv s.files) :
    FilesInv s'.files := by
  unfold sync at hres
  simp only [bind, Except.bind, pure, Except.pure] at hres
  split at hres
  · cases hres
  · rename_i hf hg
    obtain ⟨hlook, hmem⟩ := getLive_ok hg
    have hinv := hl _ _ hlook
    split at hres
    · cases hres
    · rename_i sf hsync
      cases hres
      exact (fileSyncInner_inv hsync hl hinv).1

theorem fileClose_inv {s : S3M} {path : GoStr} {f : FileM} {s' : S3M}
    (hres : fileClose s path f = .ok s') (hl : FilesInv s.files) (hf : FileInv f) :
    FilesInv s'.files := by
  unfold fileClose at hres
  split at hres
  · rename_i hempty
    split at hres
    · cases hres
    · rename_i sf hsync
      obtain ⟨h1, h3, _, h5⟩ := fileSyncInner_inv hsync hl hf
      split at hres
      · cases hres
        exact FilesInv_insert h1 (FileInv_close (h3.trans hempty) h5)
      · cases hres
        exact h1
  · cases hres
    exact hl

theorem closeHandle_inv {s : S3M} {id : Nat} {s' : S3M}
    (hres : closeHandle s id = .ok s') (hl : FilesInv s.files) :
    FilesInv s'.files := by
  unfold closeHandle at hres
  simp only [bind, Except.bind, pure, Except.pure] at hres
  split at hres
  · cases hres
  · rename_i hf hg
    obtain ⟨hlook, hmem⟩ := getLive_ok hg
    have hinv := hl _ _ hlook
    have hinv1 : FileInv { hf.2 with handles := hf.2.handles.erase id } := by
      constructor
      · intro hne
        exact hinv.1 (List.ne_nil_of_mem hmem)
      · exact hinv.2
    have hl1 : FilesInv (insertKey s.files hf.1.path
        { hf.2 with handles := hf.2.handles.erase id }) :=
      FilesInv_insert hl hinv1
    exact fileClose_inv hres hl1 hinv1

/-- Every operation preserves the registry invariant. -/
theorem applyOp_inv (s : S3M) (op : Op) (hl : FilesInv s.files) :
    FilesInv (applyOp s op).files := by
  cases op with
  | openF path flag =>
    simp only [applyOp]
    split
    · rename_i sh hres
      exact openFile_inv hres hl
    · exact hl
  | write id p =>
    simp only [applyOp]
    split
    · rename_i sn hres
      exact write_inv hres hl
    · exact hl
  | writeAt id p off =>
    simp only [applyOp]
    split
    · rename_i sn hres
      exact writeAt_inv hres hl
    · exact hl
  | truncate id size =>
    simp only [applyOp]
    split
    · rename_i s2 hres
      exact truncate_inv hres hl
    · exact hl
  | sync id =>
    simp only [applyOp]
    split
    · rename_i s2 hres
      exact sync_inv hres hl
    · exact hl
  | close id =>
    simp only [applyOp]
    split
    · rename_i s2 hres
      exact closeHandle_inv hres hl
    · exact hl
  | read id => exact hl

theorem applyOps_inv (s : S3M) (ops : List Op) (hl : FilesInv s.files) :
    FilesInv (applyOps s ops).files := by
  induction ops generalizing s with
  | nil => exact hl
  | cons op rest ih => exact ih (applyOp s op) (applyOp_inv s op hl)

/-!
### Registry persistence (claim C4)

`fsys.files` only ever grows: no operation deletes a registry entry.
-/

theorem lookupKey_insertKey_isSome {κ α : Type} [DecidableEq κ]
    (l : List (κ × α)) (k q : κ) (v : α) (h : (lookupKey l q).isSome = true) :
    (lookupKey (insertKey l k v) q).isSome = true := by
  by_cases hk : k = q
  · subst hk
    simp
  · rw [lookupKey_insertKey_ne _ _ _ _ hk]
    exact h

/-- Registry entries survive every state transition. -/
def filesMono (l l' : List (GoStr × FileM)) : Prop :=
  ∀ q, (lookupKey l q).isSome = true → (lookupKey l' q).isSome = true

theorem filesMono_refl (l : List (GoStr × FileM)) : filesMono l l := fun _ h => h

theorem filesMono_insert (l : List (GoStr × FileM)) (k : GoStr) (v : FileM) :
    filesMono l (insertKey l k v) :=
  fun q h => lookupKey_insertKey_isSome l k q v h

theorem filesMono_trans {a b c : List (GoStr × FileM)}
    (h1 : filesMono a b) (h2 : filesMono b c) : filesMono a c :=
  fun q h => h2 q (h1 q h)

theorem openFile_mono {s : S3M} {path : GoStr} {flag : Nat} {s' : S3M} {id : Nat}
    (hres : openFile s path flag = .ok (s', id)) : filesMono s.files s'.files := by
  unfold openFile at hres
  simp only [bind, Except.bind, pure, Except.pure] at hres
  repeat' split at hres
  all_goals (try cases hres)
  all_goals exact filesMono_insert _ _ _

theorem writeAt_mono {s : S3M} {id : Nat} {p : Bytes} {off : Nat} {s' : S3M} {n : Nat}
    (hres : writeAt s id p off = .ok (s', n)) : filesMono s.files s'.files := by
  unfold writeAt at hres
  simp only [bind, Except.bind, pure, Except.pure] at hres
  repeat' split at hres
  all_goals (try cases hres)
  all_goals exact filesMono_insert _ _ _

theorem write_mono {s : S3M} {id : Nat} {p : Bytes} {s' : S3M} {n : Nat}
    (hres : write s id p = .ok (s', n)) : filesMono s.files s'.files := by
  unfold write at hres
  simp only [bind, Except.bind, pure, Except.pure] at hres
  split at hres
  · cases hres
  · split at hres
    · cases hres
    · rename_i sn hw
      cases hres
      have h5 : filesMono s.files sn.1.files := writeAt_mono hw
      exact h5

theorem truncate_mono {s : S3M} {id : Nat} {size : Nat} {s' : S3M}
    (hres : truncate s id size = .ok s') : filesMono s.files s'.files := by
  unfold truncate at hres
  simp only [bind, Except.bind, pure, Except.pure] at hres
  repeat' split at hres
  all_goals (try cases hres)
  all_goals exact filesMono_insert _ _ _

theorem fileSyncInner_mono {s : S3M} {path : GoStr} {f : FileM} {s' : S3M} {f' : FileM}
    (hres : fileSyncInner s path f = .ok (s', f')) : filesMono s.files s'.files := by
  unfold fileSyncInner at hres
  repeat' split at hres
  all_goals (try cases hres)
  all_goals first
    | exact filesMono_insert _ _ _
    | exact filesMono_refl _

theorem sync_mono {s : S3M} {id : Nat} {s' : S3M}
    (hres : sync s id = .ok s') : filesMono s.files s'.files := by
  unfold sync at hres
  simp only [bind, Except.bind, pure, Except.pure] at hres
  split at hres
  · cases hres
  · split at hres
    · cases hres
    · rename_i sf hsync
      cases hres
      exact fileSyncInner_mono hsync

theorem fileClose_mono {s : S3M} {path : GoStr} {f : FileM} {s' : S3M}
    (hres : fileClose s path f = .ok s') : filesMono s.files s'.files := by
  unfold fileClose at hres
  split at hres
  · split at hres
    · cases hres
    · rename_i sf hsync
      have hm2 := fileSyncInner_mono hsync
      split at hres
      · cases hres
        exact filesMono_trans hm2 (filesMono_insert _ _ _)
      · cases hres
        exact hm2
  · cases hres
    exact filesMono_refl _

theorem closeHandle_mono {s : S3M} {id : Nat} {s' : S3M}
    (hres : closeHandle s id = .ok s') : filesMono s.files s'.files := by
  unfold closeHandle at hres
  simp only [bind, Except.bind, pure, Except.pure] at hres
  split at hres
  · cases hres
  · rename_i hf hg
    have hm1 : filesMono s.files
        (insertKey s.files hf.1.path
          { hf.2 with handles := hf.2.handles.erase id }) :=
      filesMono_insert _ _ _
    exact filesMono_trans hm1 (fileClose_mono hres)

theorem applyOp_mono (s : S3M) (op : Op) : filesMono s.files (applyOp s op).files := by
  cases op with
  | openF path flag =>
    simp only [applyOp]
    split
    · rename_i sh hres
      exact openFile_mono hres
    · exact filesMono_refl _
  | write id p =>
    simp only [applyOp]
    split
    · rename_i sn hres
      exact write_mono hres
    · exact filesMono_refl _
  | writeAt id p off =>
    simp only [applyOp]
    split
    · rename_i sn hres
      exact writeAt_mono hres
    · exact filesMono_refl _
  | truncate id size =>
    simp only [applyOp]
    split
    · rename_i s2 hres
      exact truncate_mono hres
    · exact filesMono_refl _
  | sync id =>
    simp only [applyOp]
    split
    · rename_i s2 hres
      exact sync_mono hres
    · exact filesMono_refl _
  | close id =>
    simp only [applyOp]
    split
    · rename_i s2 hres
      exact closeHandle_mono hres
    · exact filesMono_refl _
  | read id => exact filesMono_refl _

theorem applyOps_mono (s : S3M) (ops : List Op) :
    filesMono s.files (applyOps s ops).files := by
  induction ops generalizing s with
  | nil => exact filesMono_refl _
  | cons op rest ih =>
    exact filesMono_trans (applyOp_mono s op) (ih (applyOp s op))

/-- Full behaviour of `file.Sync`'s upload half. -/
theorem fileSyncInner_spec {s : S3M} {path : GoStr} {f : FileM} {s' : S3M} {f' : FileM}
    (hres : fileSyncInner s path f = .ok (s', f')) :
    s' = s ∧ f' = f ∧ f.dirty = false ∨
    f.dirty = true ∧ f.stagingFile = true ∧ f' = { f with dirty := false } ∧
      s' = { s with
             remote := insertKey s.remote f.key ((lookupKey s.staging f.key).getD [])
             files := insertKey s.files path { f with dirty := false } } := by
  unfold fileSyncInner at hres
  split at hres
  · split at hres
    · cases hres
    · rename_i hdirty hstage
      cases hres
      right
      exact ⟨by simpa using hdirty, by simpa using hstage, rfl, rfl⟩
  · rename_i hdirty
    cases hres
    left
    exact ⟨rfl, rfl, by simpa using hdirty⟩

/-- What `file.Close` does when no handles remain and the file is registered:
flush if dirty, remove the staging file, keep the `file` in the registry with
cleared flags. -/
theorem fileClose_spec {s : S3M} {path : GoStr} {f : FileM} {s' : S3M}
    (hlook : lookupKey s.files path = some f)
    (hempty : f.handles = [])
    (hres : fileClose s path f = .ok s') :
    ∃ g : FileM, lookupKey s'.files path = some g ∧ g.handles = [] ∧
      g.stagingFile = false ∧ g.dirty = false ∧ g.key = f.key ∧
      (f.dirty = true →
        lookupKey s'.remote f.key = some ((lookupKey s.staging f.key).getD [])) ∧
      (f.stagingFile = true → lookupKey s'.staging f.key = none) := by
  unfold fileClose at hres
  rw [if_pos hempty] at hres
  split at hres
  · cases hres
  · rename_i sf hsync
    rcases fileSyncInner_spec hsync with
      ⟨hs1, hf1, hd⟩ | ⟨hdirty, hstage, hf2, hs2⟩
    · -- the file was clean: no upload happened
      rw [hs1, hf1] at hres
      split at hres
      · rename_i hstagetrue
        cases hres
        refine ⟨{ f with stagingFile := false },
          lookupKey_insertKey_self _ _ _, hempty, rfl, hd, rfl, ?_, ?_⟩
        · intro hcontra
          rw [hd] at hcontra
          cases hcontra
        · intro _
          exact lookupKey_eraseKey_self _ _
      · rename_i hstagefalse
        cases hres
        refine ⟨f, hlook, hempty, ?_, hd, rfl, ?_, ?_⟩
        · simpa using hstagefalse
        · intro hcontra
          rw [hd] at hcontra
          cases hcontra
        · intro hcontra
          exact absurd hcontra (by simpa using hstagefalse)
    · -- the file was dirty: upload then remove staging
      rw [hf2, hs2] at hres
      split at hres
      · cases hres
        refine ⟨{ f with dirty := false, stagingFile := false },
          lookupKey_insertKey_self _ _ _, hempty, rfl, rfl, rfl, ?_, ?_⟩
        · intro _
          exact lookupKey_insertKey_self _ _ _
        · intro _
          exact lookupKey_eraseKey_self _ _
      · rename_i hstagefalse
        exact absurd hstage (by simpa using hstagefalse)

/-- What the last `Close` of a path does: the handle set empties, the staging
file is flushed (if dirty) and removed, and the `file` stays in the registry. -/
theorem closeHandle_last {s : S3M} {id : Nat} {h : HandleRec} {f : FileM} {s' : S3M}
    (hg : getLive s id = .ok (h, f))
    (hempty : f.handles.erase id = [])
    (hres : closeHandle s id = .ok s') :
    ∃ g : FileM, lookupKey s'.files h.path = some g ∧ g.handles = [] ∧
      g.stagingFile = false ∧ g.dirty = false ∧ g.key = f.key ∧
      (f.dirty = true →
        lookupKey s'.remote f.key = some ((lookupKey s.staging f.key).getD [])) ∧
      (f.stagingFile = true → lookupKey s'.staging f.key = none) := by
  unfold closeHandle at hres
  simp only [bind, Except.bind, pure, Except.pure] at hres
  split at hres
  · rename_i e heq
    rw [hg] at heq
    cases heq
  · rename_i v heq
    rw [hg] at heq
    cases heq
    have hspec := @fileClose_spec
      { s with
        files := insertKey s.files h.path { f with handles := f.handles.erase id }
        handleTbl := eraseKey s.handleTbl id }
      h.path { f with handles := f.handles.erase id } s'
      (lookupKey_insertKey_self _ _ _)
      (show ({ f with handles := f.handles.erase id } : FileM).handles = [] from hempty)
      hres
    simpa using hspec

/-!
### The round trip on a fresh path (claim C1)
-/

theorem writeBytes_nil_zero (p : Bytes) : writeBytes [] 0 p = p := by
  simp [writeBytes]

theorem openFile_fresh_spec (s : S3M) (p : GoStr)
    (hstat : fsStat s.remote p = .error .notExist)
    (hreg : lookupKey s.files p = none) :
    openFile s p (oRDWR ||| oCREATE) =
      .ok ({ s with
             files := insertKey s.files p ⟨toKey p false, true, false, [s.nextId]⟩
             staging := insertKey s.staging (toKey p false) []
             handleTbl := insertKey s.handleTbl s.nextId ⟨p, false, 0⟩
             nextId := s.nextId + 1 }, s.nextId) := by
  have hc : flagIsSet (oRDWR ||| oCREATE) oCREATE = true := by decide
  unfold openFile
  rw [hstat]
  simp [bind, Except.bind, pure, Except.pure, hreg, hc, flagIsSet_rdonly]

theorem write_fresh_spec (s : S3M) (p : GoStr) (buf : Bytes) (hbuf : buf ≠ []) :
    write ({ s with
             files := insertKey s.files p ⟨toKey p false, true, false, [s.nextId]⟩
             staging := insertKey s.staging (toKey p false) []
             handleTbl := insertKey s.handleTbl s.nextId ⟨p, false, 0⟩
             nextId := s.nextId + 1 }) s.nextId buf =
      .ok ({ s with
             files := insertKey s.files p ⟨toKey p false, true, true, [s.nextId]⟩
             staging := insertKey s.staging (toKey p false) buf
             handleTbl := insertKey s.handleTbl s.nextId ⟨p, false, buf.length⟩
             nextId := s.nextId + 1 }, buf.length) := by
  have hlen : 0 < buf.length := List.length_pos.mpr hbuf
  unfold write writeAt getLive
  simp [bind, Except.bind, pure, Except.pure, writeBytes_nil_zero, hlen, Nat.pos_iff_ne_zero.mp hlen]

theorem sync_fresh_spec (s : S3M) (p : GoStr) (buf : Bytes) :
    sync ({ s with
            files := insertKey s.files p ⟨toKey p false, true, true, [s.nextId]⟩
            staging := insertKey s.staging (toKey p false) buf
            handleTbl := insertKey s.handleTbl s.nextId ⟨p, false, buf.length⟩
            nextId := s.nextId + 1 }) s.nextId =
      .ok { s with
            remote := insertKey s.remote (toKey p false) buf
            files := insertKey s.files p ⟨toKey p false, true, false, [s.nextId]⟩
            staging := insertKey s.staging (toKey p false) buf
            handleTbl := insertKey s.handleTbl s.nextId ⟨p, false, buf.length⟩
            nextId := s.nextId + 1 } := by
  unfold sync getLive fileSyncInner
  simp [bind, Except.bind, pure, Except.pure]

theorem close_fresh_spec (s : S3M) (p : GoStr) (buf : Bytes) :
    closeHandle ({ s with
                   remote := insertKey s.remote (toKey p false) buf
                   files := insertKey s.files p ⟨toKey p false, true, false, [s.nextId]⟩
                   staging := insertKey s.staging (toKey p false) buf
                   handleTbl := insertKey s.handleTbl s.nextId ⟨p, false, buf.length⟩
                   nextId := s.nextId + 1 }) s.nextId =
      .ok { s with
            remote := insertKey s.remote (toKey p false) buf
            files := insertKey s.files p ⟨toKey p false, false, false, []⟩
            staging := eraseKey s.staging (toKey p false)
            handleTbl := eraseKey s.handleTbl s.nextId
            nextId := s.nextId + 1 } := by
  unfold closeHandle getLive fileClose fileSyncInner
  simp [bind, Except.bind, pure, Except.pure, List.erase_cons_head]

theorem reopen_spec (s : S3M) (p : GoStr) (buf : Bytes) (hkey : toKey p false ≠ []) :
    openFile ({ s with
                remote := insertKey s.remote (toKey p false) buf
                files := insertKey s.files p ⟨toKey p false, false, false, []⟩
                staging := eraseKey s.staging (toKey p false)
                handleTbl := eraseKey s.handleTbl s.nextId
                nextId := s.nextId + 1 }) p oRDONLY =
      .ok ({ s with
             remote := insertKey s.remote (toKey p false) buf
             files := insertKey s.files p ⟨toKey p false, true, false, [s.nextId + 1]⟩
             staging := insertKey (eraseKey s.staging (toKey p false)) (toKey p false) buf
             handleTbl := insertKey (eraseKey s.handleTbl s.nextId) (s.nextId + 1) ⟨p, false, 0⟩
             nextId := s.nextId + 2 }, s.nextId + 1) := by
  have hstat2 : fsStat (insertKey s.remote (toKey p false) buf) p =
      .ok ⟨toKey p false, buf.length⟩ := by
    unfold fsStat
    rw [if_neg hkey]
    simp
  unfold openFile
  rw [hstat2]
  simp [bind, Except.bind, pure, Except.pure, flagIsSet_rdonly]

theorem readAll_fresh_spec (s : S3M) (p : GoStr) (buf : Bytes) :
    readAll ({ s with
               remote := insertKey s.remote (toKey p false) buf
               files := insertKey s.files p ⟨toKey p false, true, false, [s.nextId + 1]⟩
               staging := insertKey (eraseKey s.staging (toKey p false)) (toKey p false) buf
               handleTbl := insertKey (eraseKey s.handleTbl s.nextId) (s.nextId + 1) ⟨p, false, 0⟩
               nextId := s.nextId + 2 }) (s.nextId + 1) = .ok buf := by
  unfold readAll getLive
  simp [bind, Except.bind, pure, Except.pure]

/-- The fresh-path round trip: writing a nonempty buffer to a path absent
from the bucket with no open-file state, syncing, closing, reopening
read-only and reading to EOF yields exactly the written bytes. -/
theorem roundTrip_fresh (s : S3M) (p : GoStr) (buf : Bytes)
    (hstat : fsStat s.remote p = .error .notExist)
    (hreg : lookupKey s.files p = none)
    (hbuf : buf ≠ [])
    (hkey : toKey p false ≠ []) :
    roundTrip s p buf = .ok buf := by
  unfold roundTrip
  rw [openFile_fresh_spec s p hstat hreg]
  simp only [bind, Except.bind]
  rw [write_fresh_spec s p buf hbuf]
  simp only [bind, Except.bind]
  rw [sync_fresh_spec s p buf]
  simp only [bind, Except.bind]
  rw [close_fresh_spec s p buf]
  simp only [bind, Except.bind]
  rw [reopen_spec s p buf hkey]
  simp only [bind, Except.bind]
  rw [readAll_fresh_spec s p buf]

/-!
## `s3FS.Close` (`s3.go`)

`Close` cancels the root scope, then walks the open-file registry closing
every handle; `h.Close()` may fail (e.g. a flush error), in which case the
code returns that error immediately — before the `os.RemoveAll(stagingDir)`
at the end of the function.  The outcome of each individual handle close is
abstracted as an `Option Err`; the registry is a list of files, each a list
of handle-close outcomes, iterated in a fixed order (Go map iteration order
is unspecified; the model fixes one).
-/

structure FSCloseResult where
  cancelled : Bool
  closedHandles : Nat
  stagingRemoved : Bool
  result : Except Err Unit
  deriving DecidableEq, Repr

/-- Close the handles of one file in order, stopping at the first error;
returns how many closed and the error, if any. -/
def closeSeq : List (Option Err) → Nat × Option Err
  | [] => (0, none)
  | none :: rest =>
    let r := closeSeq rest
    (r.1 + 1, r.2)
  | some e :: _ => (0, some e)

/-- Close all files' handles in order, stopping at the first error. -/
def closeFilesSeq : List (List (Option Err)) → Nat × Option Err
  | [] => (0, none)
  | f :: rest =>
    match closeSeq f with
    | (n, some e) => (n, some e)
    | (n, none) =>
      let r := closeFilesSeq rest
      (n + r.1, r.2)

/-- `s3FS.Close`: cancel, close all handles; on the first handle-close error
return it at once (the staging root is NOT removed); otherwise remove the
staging root. -/
def fsClose (files : List (List (Option Err))) : FSCloseResult :=
  match closeFilesSeq files with
  | (n, some e) => ⟨true, n, false, .error e⟩
  | (n, none) => ⟨true, n, true, .ok ()⟩

/-- The first close error in handle order, specified independently on the
flattened handle list. -/
def firstCloseErr (files : List (List (Option Err))) : Option Err :=
  files.flatten.findSome? (fun o => o)

example : fsClose [[none, none], [none]] = ⟨true, 3, true, .ok ()⟩ := by decide
example : fsClose [[none, some .permission], [none]] =
    ⟨true, 1, false, .error .permission⟩ := by decide

end S3FS

namespace DirFS

open GoLib
open S3FS (Err)

/-!
## The staging directory filesystem (`dirfs/dirfs.go`)

`safePath` resolves `filepath.Abs(filepath.Join(root, path))` (on a Unix
separator, with an absolute `root` the `Abs` is just another `Clean`) and
rejects, with `ErrPermission`, any result that does not have the root as a
*string* prefix.  Every `dirFS` operation goes through it.
-/

/-- `dirFS.safePath`. -/
def safePath (root p : GoStr) : Except Err GoStr :=
  let absPath := goClean (goJoin root p)
  if goHasPref absPath root then .ok absPath else .error .permission

/-- Is `a` the root itself or strictly inside the root directory?
(The correctness notion: the resolved path lies in the rooted subtree.) -/
def underRoot (root a : GoStr) : Bool :=
  a = root || goHasPref a (root ++ ['/'])

example : safePath "/tmp/stage".toList "a/b".toList = .ok "/tmp/stage/a/b".toList := by
  decide
example : safePath "/tmp/stage".toList "../../etc/passwd".toList = .error .permission := by
  decide
example : safePath "/tmp/stage".toList "../stage-evil/x".toList =
    .ok "/tmp/stage-evil/x".toList := by decide

end DirFS

namespace S3FS

open GoLib

/-!
## Extended attributes (`s3fs/xattrs.go`)

An xattr view holds a cache (refreshed from the object's user metadata on
every `Sync`) and a pending-change map; names are folded to ASCII lowercase
at each entry point.  `Sync` re-stats the object, rebuilds the cache from the
(lowercased) server metadata, merges the pending changes, and — if there were
any — rewrites the object metadata via a metadata-replacing self-copy.
The object is assumed to exist (`StatObject` succeeding is implicit in the
`meta` argument).
-/

structure AttrChange where
  value : GoStr
  remove : Bool
  deriving DecidableEq, Repr

structure S3AttrsM where
  cache : List (GoStr × GoStr)
  changes : List (GoStr × AttrChange)
  readOnly : Bool
  deriving DecidableEq, Repr

/-- `s3Attrs.Get`. -/
def attrsGet (a : S3AttrsM) (name : GoStr) : Except Err GoStr :=
  let n := goToLower name
  match lookupKey a.changes n with
  | some c => if c.remove then .error .noSuchAttr else .ok c.value
  | none =>
    match lookupKey a.cache n with
    | some v => .ok v
    | none => .error .noSuchAttr

/-- `s3Attrs.Set`. -/
def attrsSet (a : S3AttrsM) (name value : GoStr) : Except Err S3AttrsM :=
  if a.readOnly then .error .permission
  else .ok { a with changes := insertKey a.changes (goToLower name) ⟨value, false⟩ }

/-- `s3Attrs.Remove`. -/
def attrsRemove (a : S3AttrsM) (name : GoStr) : Except Err S3AttrsM :=
  if a.readOnly then .error .permission
  else .ok { a with changes := insertKey a.changes (goToLower name) ⟨[], true⟩ }

/-- Merge the pending changes into a cache. -/
def applyChanges (cache : List (GoStr × GoStr)) :
    List (GoStr × AttrChange) → List (GoStr × GoStr)
  | [] => cache
  | (n, c) :: rest =>
    applyChanges (if c.remove then eraseKey cache n else insertKey cache n c.value) rest

/-- `s3Attrs.Sync`, given the object's current user metadata; returns the new
view together with the (possibly rewritten) metadata on the object. -/
def attrsSync (a : S3AttrsM) (meta : List (GoStr × GoStr)) :
    S3AttrsM × List (GoStr × GoStr) :=
  let cache := meta.map (fun kv => (goToLower kv.1, kv.2))
  if a.changes = [] then ({ a with cache := cache }, meta)
  else
    let cache := applyChanges cache a.changes
    ({ a with cache := cache, changes := [] }, cache)

/-- Where the merged cache answers a lookup, assuming the pending-change keys
are distinct (they are: Go maps have unique keys). -/
theorem lookupKey_applyChanges (cache : List (GoStr × GoStr))
    (chs : List (GoStr × AttrChange)) (k : GoStr)
    (hnod : (chs.map Prod.fst).Nodup) :
    lookupKey (applyChanges cache chs) k =
      match lookupKey chs k with
      | some c => if c.remove then none else some c.value
      | none => lookupKey cache k := by
  induction chs generalizing cache with
  | nil => rfl
  | cons p rest ih =>
    obtain ⟨n, c⟩ := p
    simp only [List.map_cons, List.nodup_cons] at hnod
    show lookupKey (applyChanges (if c.remove then eraseKey cache n
      else insertKey cache n c.value) rest) k = _
    rw [ih _ hnod.2]
    by_cases hk : n = k
    · subst hk
      have h1 : lookupKey rest n = none := lookupKey_none_of_not_mem hnod.1
      rw [h1]
      simp only [lookupKey, if_pos rfl]
      by_cases hrem : c.remove = true
      · simp [hrem]
      · simp only [Bool.not_eq_true] at hrem
        simp [hrem]
    · simp only [lookupKey, if_neg hk]
      cases h2 : lookupKey rest k with
      | some c2 => rfl
      | none =>
        by_cases hrem : c.remove = true
        · rw [if_pos hrem, lookupKey_eraseKey_ne _ _ _ hk]
        · rw [if_neg hrem, lookupKey_insertKey_ne _ _ _ _ hk]

/-!
## `FS.Close` support lemmas
-/

theorem findSomeOpt_append (l1 l2 : List (Option Err)) :
    (l1 ++ l2).findSome? (fun o => o) =
      match l1.findSome? (fun o => o) with
      | some e => some e
      | none => l2.findSome? (fun o => o) := by
  induction l1 with
  | nil => rfl
  | cons a as ih =>
    cases a with
    | some e => simp [List.findSome?]
    | none => simpa [List.findSome?] using ih

theorem closeSeq_spec (hs : List (Option Err)) :
    (closeSeq hs).2 = hs.findSome? (fun o => o) ∧
    ((closeSeq hs).2 = none → (closeSeq hs).1 = hs.length) := by
  induction hs with
  | nil => exact ⟨rfl, fun _ => rfl⟩
  | cons o rest ih =>
    cases o with
    | none =>
      refine ⟨?_, ?_⟩
      · show (closeSeq rest).2 = _
        simpa [List.findSome?] using ih.1
      · intro h
        show (closeSeq rest).1 + 1 = rest.length + 1
        have h2 : (closeSeq rest).2 = none := h
        rw [ih.2 h2]
    | some e => exact ⟨by simp [closeSeq, List.findSome?], fun h => by cases h⟩

theorem closeFilesSeq_spec (files : List (List (Option Err))) :
    (closeFilesSeq files).2 = firstCloseErr files ∧
    ((closeFilesSeq files).2 = none →
      (closeFilesSeq files).1 = files.flatten.length) := by
  induction files with
  | nil => exact ⟨rfl, fun _ => rfl⟩
  | cons f rest ih =>
    have hf := closeSeq_spec f
    unfold closeFilesSeq firstCloseErr
    rw [List.flatten_cons, findSomeOpt_append]
    cases hc : closeSeq f with
    | mk n oe =>
      cases oe with
      | some e =>
        have h1 : f.findSome? (fun o => o) = some e := by
          rw [← hf.1, hc]
        rw [h1]
        exact ⟨rfl, fun h => by cases h⟩
      | none =>
        have h1 : f.findSome? (fun o => o) = none := by
          rw [← hf.1, hc]
        rw [h1]
        refine ⟨?_, ?_⟩
        · show (closeFilesSeq rest).2 = _
          exact ih.1 ▸ rfl
        · intro h
          show n + (closeFilesSeq rest).1 = (f ++ rest.flatten).length
          have h2 : (closeFilesSeq rest).2 = none := h
          have h3 : n = f.length := by
            have := hf.2 (by rw [hc])
            rw [hc] at this
            exact this
          rw [ih.2 h2, h3, List.length_append]

/-!
## The archive pipeline's tar emission (`s3fs/archive.go`)

Both versions of `Archive` share the same listing logic: walk the recursive
listing, skip the prefix itself, record trailing-slash keys as directories,
and for every object walk the dirname chain of its prefix-stripped key
rootward, stopping at `"."`, `"/"`, or a directory already recorded.
Directory paths are then sorted and emitted as `TypeDir`/`0o755` headers
before any file entry; each object becomes one `0o644` file entry whose name
is the key with the archive prefix stripped.  File entries are serialized
here in listing order (one serialization of the bounded parallel fan-out;
the properties proved below are invariant under permuting file entries).
The dirname-chain walk is written with explicit fuel (`length + 2` strictly
bounds the chain, since `path.Dir` shortens its argument or yields `"."`).
-/

structure ObjInfoM where
  key : GoStr
  size : Nat
  deriving DecidableEq, Repr

inductive TarType where
  | dir
  | file
  deriving DecidableEq, Repr

structure TarHeader where
  name : GoStr
  typeflag : TarType
  mode : Nat
  size : Nat
  deriving DecidableEq, Repr

/-- The `for dir != "." && dir != "/" && !directories[dir]` loop. -/
def dirChainAdd : Nat → List GoStr → GoStr → List GoStr
  | 0, dirs, _ => dirs
  | fuel + 1, dirs, d =>
    if d ≠ ['.'] ∧ d ≠ ['/'] ∧ d ∉ dirs then dirChainAdd fuel (dirs ++ [d]) (goDir d)
    else dirs

/-- One listing element: skip the prefix marker, collect directories,
collect objects. -/
def collectStep (pre : GoStr) (acc : List ObjInfoM × List GoStr) (obj : ObjInfoM) :
    List ObjInfoM × List GoStr :=
  if obj.key = pre then acc
  else if goHasSuff obj.key ['/'] then
    let d := goTrimSuff (goTrimPref obj.key pre) ['/']
    (acc.1, if d ∈ acc.2 then acc.2 else acc.2 ++ [d])
  else
    (acc.1 ++ [obj], dirChainAdd (obj.key.length + 2) acc.2 (goDir (goTrimPref obj.key pre)))

def collectListing (pre : GoStr) (listing : List ObjInfoM) :
    List ObjInfoM × List GoStr :=
  listing.foldl (collectStep pre) ([], [])

/-- The tar headers `Archive` emits for a listing. -/
def archiveEntries (pre : GoStr) (listing : List ObjInfoM) : List TarHeader :=
  let c := collectListing pre listing
  (sortStr c.2).map (fun d => ⟨d, .dir, 0o755, 0⟩) ++
    c.1.map (fun o => ⟨goTrimPref o.key pre, .file, 0o644, o.size⟩)

/-- The FULL dirname chain of a directory path (no early stop). -/
def fullDirChain : Nat → GoStr → List GoStr
  | 0, _ => []
  | fuel + 1, d =>
    if d ≠ ['.'] ∧ d ≠ ['/'] then d :: fullDirChain fuel (goDir d) else []

/-- Modelled from the claim's words (for comparison with the code): the set
of unique directory paths of a subtree — every explicit marker plus every
entry of every object's dirname chain. -/
def specDirs (pre : GoStr) (listing : List ObjInfoM) : List GoStr :=
  (listing.flatMap fun o =>
    if o.key = pre then []
    else if goHasSuff o.key ['/'] then [goTrimSuff (goTrimPref o.key pre) ['/']]
    else fullDirChain (o.key.length + 2) (goDir (goTrimPref o.key pre))).dedup

/-- The names of the directory headers in an entry list. -/
def dirNames (entries : List TarHeader) : List GoStr :=
  (entries.filter (fun e => e.typeflag = TarType.dir)).map TarHeader.name

/-- The listing entries that become file entries: not the prefix itself, and
not a directory marker. -/
def isFileObj (pre : GoStr) (o : ObjInfoM) : Bool :=
  !decide (o.key = pre) && !goHasSuff o.key ['/']

/-- Strings sorted by Go byte-wise order. -/
def StrSorted (l : List GoStr) : Prop :=
  List.Pairwise (fun a b => leStr a b = true) l

theorem insertStr_perm (a : GoStr) (l : List GoStr) :
    List.Perm (insertStr a l) (a :: l) := by
  induction l with
  | nil => exact List.Perm.refl _
  | cons b bs ih =>
    unfold insertStr
    split
    · exact List.Perm.refl _
    · exact List.Perm.trans (List.Perm.cons b ih) (List.Perm.swap a b bs)

theorem sortStr_perm (l : List GoStr) : List.Perm (sortStr l) l := by
  induction l with
  | nil => exact List.Perm.refl _
  | cons a as ih =>
    exact List.Perm.trans (insertStr_perm a (sortStr as)) (List.Perm.cons a ih)

theorem insertStr_sorted (a : GoStr) (l : List GoStr) (hl : StrSorted l) :
    StrSorted (insertStr a l) := by
  induction l with
  | nil => exact List.pairwise_singleton _ _
  | cons b bs ih =>
    unfold insertStr
    split
    · rename_i hab
      refine List.Pairwise.cons ?_ hl
      intro x hx
      rcases List.mem_cons.mp hx with h | h
      · subst h
        exact hab
      · exact leStr_trans a b x hab (List.rel_of_pairwise_cons hl h)
    · rename_i hab
      have hba : leStr b a = true := by
        rcases leStr_total a b with h | h
        · exact absurd h hab
        · exact h
      refine List.Pairwise.cons ?_ (ih (List.Pairwise.sublist (List.sublist_cons_self b bs) hl))
      intro x hx
      have hx2 := (insertStr_perm a bs).mem_iff.mp hx
      rcases List.mem_cons.mp hx2 with h | h
      · subst h
        exact hba
      · exact List.rel_of_pairwise_cons hl h

theorem sortStr_sorted (l : List GoStr) : StrSorted (sortStr l) := by
  induction l with
  | nil => exact List.Pairwise.nil
  | cons a as ih => exact insertStr_sorted a (sortStr as) ih

theorem sortStr_nodup (l : List GoStr) (hl : l.Nodup) : (sortStr l).Nodup :=
  (sortStr_perm l).nodup_iff.mpr hl

theorem dirChainAdd_nodup (fuel : Nat) (dirs : List GoStr) (d : GoStr)
    (hnod : dirs.Nodup) : (dirChainAdd fuel dirs d).Nodup := by
  induction fuel generalizing dirs d with
  | zero => exact hnod
  | succ n ih =>
    unfold dirChainAdd
    split
    · rename_i hcond
      refine ih (dirs ++ [d]) (goDir d) ?_
      simp [List.nodup_append, hnod, hcond.2.2]
    · exact hnod

theorem collect_dirs_nodup (pre : GoStr) (listing : List ObjInfoM) :
    ∀ acc : List ObjInfoM × List GoStr, acc.2.Nodup →
      (listing.foldl (collectStep pre) acc).2.Nodup := by
  induction listing with
  | nil => exact fun acc h => h
  | cons o rest ih =>
    intro acc hacc
    show (rest.foldl (collectStep pre) (collectStep pre acc o)).2.Nodup
    refine ih _ ?_
    unfold collectStep
    split
    · exact hacc
    · split
      · simp only
        split
        · exact hacc
        · rename_i hnot
          simp [List.nodup_append, hacc, hnot]
      · exact dirChainAdd_nodup _ _ _ hacc

theorem collect_objs (pre : GoStr) (listing : List ObjInfoM) :
    ∀ acc : List ObjInfoM × List GoStr,
      (listing.foldl (collectStep pre) acc).1 =
        acc.1 ++ listing.filter (isFileObj pre) := by
  induction listing with
  | nil => simp
  | cons o rest ih =>
    intro acc
    show (rest.foldl (collectStep pre) (collectStep pre acc o)).1 = _
    rw [ih (collectStep pre acc o)]
    unfold collectStep
    by_cases h1 : o.key = pre
    · rw [if_pos h1]
      have h2 : isFileObj pre o = false := by simp [isFileObj, h1]
      simp [List.filter_cons, h2]
    · rw [if_neg h1]
      by_cases h2 : goHasSuff o.key ['/'] = true
      · rw [if_pos h2]
        have h3 : isFileObj pre o = false := by simp [isFileObj, h2]
        simp [List.filter_cons, h3]
      · rw [if_neg h2]
        have h3 : isFileObj pre o = true := by
          simp [isFileObj, h1]
          simpa using h2
        simp [List.filter_cons, h3]

/-- `archiveEntries` is the sorted directory headers followed by the file
entries, one per non-prefix, non-marker listing element, in listing order. -/
theorem archiveEntries_eq (pre : GoStr) (listing : List ObjInfoM) :
    archiveEntries pre listing =
      (sortStr (collectListing pre listing).2).map (fun d => ⟨d, .dir, 0o755, 0⟩) ++
        (listing.filter (isFileObj pre)).map
          (fun o => ⟨goTrimPref o.key pre, .file, 0o644, o.size⟩) := by
  unfold archiveEntries
  have h1 := collect_objs pre listing ([], [])
  simp only [collectListing]
  rw [h1]
  simp

/-- The directory headers of an entry list. -/
def dirEntriesOf (entries : List TarHeader) : List TarHeader :=
  entries.filter (fun e => e.typeflag = TarType.dir)

/-- The file entries of an entry list. -/
def fileEntriesOf (entries : List TarHeader) : List TarHeader :=
  entries.filter (fun e => e.typeflag = TarType.file)

example : archiveEntries "r/".toList [⟨"r/a/x".toList, 2⟩, ⟨"r/b/".toList, 0⟩] =
    [⟨"a".toList, .dir, 0o755, 0⟩, ⟨"b".toList, .dir, 0o755, 0⟩,
     ⟨"a/x".toList, .file, 0o644, 2⟩] := by decide

/- The shadowing counterexample: a marker in the middle of a chain stops the
rootward walk, so `"a"` gets no directory header even though it is on the
dirname chain of `r/a/b/c/x`. -/
example : "a".toList ∈ specDirs "r/".toList
    [⟨"r/a/b/".toList, 0⟩, ⟨"r/a/b/c/x".toList, 3⟩] := by decide
example : "a".toList ∉ dirNames (archiveEntries "r/".toList
    [⟨"r/a/b/".toList, 0⟩, ⟨"r/a/b/c/x".toList, 3⟩]) := by decide

end S3FS

namespace SubFS

open GoLib

/-!
## The `Sub` path-prefix adapter (`sub.go`)

`subFS.OpenFile` forwards `filepath.Join(prefix, filepath.Clean(path))` to
the parent filesystem; `subFS.Open` forwards `path` itself, without joining
the prefix.  These functions give the parent-filesystem path each call
addresses.
-/

/-- The parent path addressed by `subFS.Open(path)` (the prefix argument is
precisely what this call fails to use). -/
def subOpen (_pre p : GoStr) : GoStr := p

/-- The parent path addressed by `subFS.OpenFile(path, flag)`. -/
def subOpenFile (pre p : GoStr) : GoStr := goJoin pre (goClean p)

example : subOpen "sub".toList "x".toList = "x".toList := rfl
example : subOpenFile "sub".toList "x".toList = "sub/x".toList := by decide
example : subOpenFile "sub".toList "../y/x".toList = "y/x".toList := by decide

end SubFS

namespace GoLib

/-!
## Structure of `path.Clean` outputs

These lemmas characterise the stack algorithm behind `goClean`: the stack is
always a block of real segments on top of a block of `".."` markers, the
output is never empty, cleaning preserves rootedness, and strings that are
already in "clean form" (some `".."`s followed by real segments, or a rooted
join of real segments) are fixed points.
-/

/-- A real path segment: not empty, not `"."`, not `".."`. -/
def isRealSeg (e : GoStr) : Prop := e ≠ [] ∧ e ≠ ['.'] ∧ e ≠ ['.', '.']

/-- `k` copies of the `".."` segment. -/
def dots (k : Nat) : List GoStr := List.replicate k ['.', '.']

theorem isRooted_append (a b : GoStr) (ha : a ≠ []) :
    isRooted (a ++ b) = isRooted a := by
  cases a with
  | nil => exact absurd rfl ha
  | cons c cs => rfl

theorem isRooted_of_slashfree {e : GoStr} (hne : e ≠ []) (hfree : '/' ∉ e) :
    isRooted e = false := by
  cases e with
  | nil => exact absurd rfl hne
  | cons c cs =>
    simp only [List.mem_cons, not_or] at hfree
    simp only [isRooted]
    exact decide_eq_false (fun h => hfree.1 h.symm)

theorem joinSlash_cons_ne_nil (e : GoStr) (rest : List GoStr) (he : e ≠ []) :
    joinSlash (e :: rest) ≠ [] := by
  cases rest with
  | nil => exact he
  | cons f rest2 => simp [joinSlash]

theorem isRooted_joinSlash_cons (e : GoStr) (rest : List GoStr) (he : e ≠ []) :
    isRooted (joinSlash (e :: rest)) = isRooted e := by
  cases rest with
  | nil => rfl
  | cons f rest2 =>
    show isRooted (e ++ '/' :: joinSlash (f :: rest2)) = isRooted e
    exact isRooted_append e _ he

theorem processElems_append (r : Bool) (stk : List GoStr) (es1 es2 : List GoStr) :
    processElems r stk (es1 ++ es2) = processElems r (processElems r stk es1) es2 :=
  List.foldl_append _ _ _ _

theorem pushElem_real (r : Bool) (stk : List GoStr) (e : GoStr) (he : isRealSeg e) :
    pushElem r stk e = e :: stk := by
  unfold pushElem
  rw [if_neg (by rintro (h | h); exacts [he.1 h, he.2.1 h]), if_neg he.2.2]

theorem processElems_reals (r : Bool) (stk : List GoStr) (es : List GoStr)
    (hes : ∀ e ∈ es, isRealSeg e) :
    processElems r stk es = es.reverse ++ stk := by
  induction es generalizing stk with
  | nil => rfl
  | cons e rest ih =>
    have h1 : pushElem r stk e = e :: stk := pushElem_real r stk e (hes e (by simp))
    show processElems r (pushElem r stk e) rest = _
    rw [h1, ih (e :: stk) (fun x hx => hes x (List.mem_cons_of_mem e hx))]
    simp

theorem pushElem_dotdot_dots (k : Nat) :
    pushElem false (dots k) ['.', '.'] = dots (k + 1) := by
  cases k with
  | zero => rfl
  | succ n =>
    show pushElem false (['.', '.'] :: dots n) ['.', '.'] = _
    unfold pushElem
    simp [dots, List.replicate_succ]

theorem processElems_dots_dots (k d : Nat) :
    processElems false (dots k) (dots d) = dots (k + d) := by
  induction d generalizing k with
  | zero => rfl
  | succ n ih =>
    show processElems false (pushElem false (dots k) ['.', '.']) (dots n) = _
    rw [pushElem_dotdot_dots k, ih (k + 1)]
    congr 1
    omega

theorem processElems_dots_real (d : Nat) (B : List GoStr)
    (hB : ∀ e ∈ B, e ≠ ['.', '.']) :
    processElems false B (dots d) =
      if d ≤ B.length then B.drop d else dots (d - B.length) := by
  induction d generalizing B with
  | zero => simp [processElems, dots]
  | succ n ih =>
    have hstep : dots (n + 1) = ['.', '.'] :: dots n := by
      simp [dots, List.replicate_succ]
    rw [hstep]
    show processElems false (pushElem false B ['.', '.']) (dots n) = _
    cases B with
    | nil =>
      have h1 : pushElem false [] ['.', '.'] = dots 1 := rfl
      rw [h1, processElems_dots_dots 1 n]
      simp only [List.length_nil]
      rw [if_neg (by omega)]
      congr 1
      omega
    | cons top rest =>
      have h1 : pushElem false (top :: rest) ['.', '.'] = rest := by
        unfold pushElem
        rw [if_neg (by rintro (h | h) <;> cases h), if_pos rfl]
        simp [hB top (by simp)]
      rw [h1, ih rest (fun e he => hB e (List.mem_cons_of_mem top he))]
      simp only [List.length_cons]
      by_cases hc : n ≤ rest.length
      · rw [if_pos hc, if_pos (by omega)]
        simp [List.drop_succ_cons]
      · rw [if_neg hc, if_neg (by omega)]
        congr 1
        omega

/-- The stack invariant: after processing slash-free elements the stack is a
block of real slash-free segments on top of a block of `".."` markers (and a
rooted stack has no `".."` markers). -/
theorem processElems_shape_aux (r : Bool) (es : List GoStr)
    (hfree : ∀ e ∈ es, '/' ∉ e) (X : List GoStr) (D : Nat)
    (hX : ∀ e ∈ X, isRealSeg e ∧ '/' ∉ e) (hD : r = true → D = 0) :
    ∃ X' D', processElems r (X ++ dots D) es = X' ++ dots D' ∧
      (∀ e ∈ X', isRealSeg e ∧ '/' ∉ e) ∧ (r = true → D' = 0) := by
  induction es generalizing X D with
  | nil => exact ⟨X, D, rfl, hX, hD⟩
  | cons e rest ih =>
    have hfree_rest : ∀ x ∈ rest, '/' ∉ x := fun x hx => hfree x (List.mem_cons_of_mem e hx)
    have hfree_e : '/' ∉ e := hfree e (by simp)
    show ∃ X' D', processElems r (pushElem r (X ++ dots D) e) rest = _ ∧ _ ∧ _
    by_cases h0 : e = [] ∨ e = ['.']
    · have h1 : pushElem r (X ++ dots D) e = X ++ dots D := by
        unfold pushElem
        rw [if_pos h0]
      rw [h1]
      exact ih hfree_rest X D hX hD
    · by_cases h2 : e = ['.', '.']
      · subst h2
        cases X with
        | cons x Xs =>
          have h1 : pushElem r ((x :: Xs) ++ dots D) ['.', '.'] = Xs ++ dots D := by
            unfold pushElem
            rw [if_neg (by rintro (h | h) <;> cases h), if_pos rfl]
            simp [(hX x (by simp)).1.2.2]
          rw [h1]
          exact ih hfree_rest Xs D (fun x hx => hX x (List.mem_cons_of_mem _ hx)) hD
        | nil =>
          cases hDD : D with
          | zero =>
            cases r with
            | true =>
              have h1 : pushElem true ([] ++ dots 0) ['.', '.'] = [] ++ dots 0 := rfl
              rw [h1]
              exact ih hfree_rest [] 0 (by simp) (fun _ => rfl)
            | false =>
              have h1 : pushElem false ([] ++ dots 0) ['.', '.'] = [] ++ dots 1 := rfl
              rw [h1]
              exact ih hfree_rest [] 1 (by simp) (by simp)
          | succ n =>
            cases r with
            | true => exact absurd (hD rfl) (by simp [hDD])
            | false =>
              have h1 : pushElem false ([] ++ dots (n + 1)) ['.', '.'] =
                  [] ++ dots (n + 2) := by
                show pushElem false (dots (n + 1)) ['.', '.'] = dots (n + 2)
                exact pushElem_dotdot_dots (n + 1)
              rw [h1]
              exact ih hfree_rest [] (n + 2) (by simp) (by simp)
      · have hreal : isRealSeg e := by
          simp only [not_or] at h0
          exact ⟨h0.1, h0.2, h2⟩
        have h1 : pushElem r (X ++ dots D) e = (e :: X) ++ dots D :=
          pushElem_real r _ e hreal
        rw [h1]
        refine ih hfree_rest (e :: X) D ?_ hD
        intro x hx
        rcases List.mem_cons.mp hx with h | h
        · subst h
          exact ⟨hreal, hfree_e⟩
        · exact hX x h

theorem processElems_shape (r : Bool) (es : List GoStr)
    (hfree : ∀ e ∈ es, '/' ∉ e) :
    ∃ X D, processElems r [] es = X ++ dots D ∧
      (∀ e ∈ X, isRealSeg e ∧ '/' ∉ e) ∧ (r = true → D = 0) := by
  have := processElems_shape_aux r es hfree [] 0 (by simp) (fun _ => rfl)
  simpa [dots] using this

theorem renderClean_false_eq (stk : List GoStr) :
    renderClean false stk =
      if stk.reverse = [] then ['.'] else joinSlash stk.reverse := rfl

theorem renderClean_true_eq (stk : List GoStr) :
    renderClean true stk = '/' :: joinSlash stk.reverse := rfl

/-- Elements of a shaped stack are nonempty and slash-free. -/
theorem shape_elem {X : List GoStr} {D : Nat}
    (hX : ∀ e ∈ X, isRealSeg e ∧ '/' ∉ e) :
    ∀ e ∈ X ++ dots D, e ≠ [] ∧ '/' ∉ e := by
  intro e he
  rcases List.mem_append.mp he with h | h
  · exact ⟨(hX e h).1.1, (hX e h).2⟩
  · have h2 : e = ['.', '.'] := List.eq_of_mem_replicate h
    subst h2
    exact ⟨by simp, by decide⟩

theorem goClean_ne_nil (s : GoStr) : goClean s ≠ [] := by
  unfold goClean
  split
  · simp
  · obtain ⟨X, D, hst, hX, hD⟩ :=
      processElems_shape (isRooted s) (splitSlash s) (splitSlash_no_slash s)
    rw [hst]
    cases hr : isRooted s with
    | true => rw [renderClean_true_eq]; simp
    | false =>
      rw [renderClean_false_eq]
      split
      · simp
      · rename_i hrev
        cases hc : (X ++ dots D).reverse with
        | nil => exact absurd hc hrev
        | cons e rest =>
          refine joinSlash_cons_ne_nil e rest ?_
          have he : e ∈ X ++ dots D := by
            rw [← List.mem_reverse, hc]
            simp
          exact (shape_elem hX e he).1

theorem isRooted_goClean (s : GoStr) : isRooted (goClean s) = isRooted s := by
  unfold goClean
  split
  · rename_i hs
    subst hs
    rfl
  · obtain ⟨X, D, hst, hX, hD⟩ :=
      processElems_shape (isRooted s) (splitSlash s) (splitSlash_no_slash s)
    rw [hst]
    cases hr : isRooted s with
    | true =>
      rw [renderClean_true_eq]
      simp [isRooted]
    | false =>
      rw [renderClean_false_eq]
      split
      · rfl
      · rename_i hrev
        cases hc : (X ++ dots D).reverse with
        | nil => exact absurd hc hrev
        | cons e rest =>
          have he : e ∈ X ++ dots D := by
            rw [← List.mem_reverse, hc]
            simp
          rw [isRooted_joinSlash_cons e rest (shape_elem hX e he).1]
          exact isRooted_of_slashfree (shape_elem hX e he).1 (shape_elem hX e he).2

/-- Strings in clean form — `".."` markers followed by real segments — are
fixed points of `goClean`. -/
theorem goClean_fixed (k : Nat) (R : List GoStr)
    (hR : ∀ e ∈ R, isRealSeg e ∧ '/' ∉ e) (hpos : 0 < k + R.length) :
    goClean (joinSlash (dots k ++ R)) = joinSlash (dots k ++ R) := by
  have hlne : dots k ++ R ≠ [] := by
    intro h
    rcases List.append_eq_nil.mp h with ⟨h1, h2⟩
    subst h2
    have hk : k = 0 := by simpa [dots] using congrArg List.length h1
    simp [hk] at hpos
  have helem : ∀ e ∈ dots k ++ R, e ≠ [] ∧ '/' ∉ e := by
    intro e he
    rcases List.mem_append.mp he with h | h
    · have h2 : e = ['.', '.'] := List.eq_of_mem_replicate h
      subst h2
      exact ⟨by simp, by decide⟩
    · exact ⟨(hR e h).1.1, (hR e h).2⟩
  have hs_ne : joinSlash (dots k ++ R) ≠ [] := by
    cases hc : dots k ++ R with
    | nil => exact absurd hc hlne
    | cons e rest =>
      exact joinSlash_cons_ne_nil e rest (helem e (by rw [hc]; simp)).1
  have hrooted : isRooted (joinSlash (dots k ++ R)) = false := by
    cases hc : dots k ++ R with
    | nil => exact absurd hc hlne
    | cons e rest =>
      rw [isRooted_joinSlash_cons e rest (helem e (by rw [hc]; simp)).1]
      exact isRooted_of_slashfree (helem e (by rw [hc]; simp)).1
        (helem e (by rw [hc]; simp)).2
  have hsplit : splitSlash (joinSlash (dots k ++ R)) = dots k ++ R :=
    splitSlash_joinSlash _ hlne (fun e he => (helem e he).2)
  unfold goClean
  rw [if_neg hs_ne, hrooted, hsplit, processElems_append]
  have h1 : processElems false [] (dots k) = dots k := by
    have h2 := processElems_dots_dots 0 k
    simpa [dots] using h2
  rw [h1, processElems_reals false _ R (fun e he => (hR e he).1)]
  rw [renderClean_false_eq]
  have hrev : (R.reverse ++ dots k).reverse = dots k ++ R := by
    simp [dots, List.reverse_append, List.reverse_replicate]
  rw [hrev, if_neg hlne]

theorem joinSlash_inj {xs ys : List GoStr} (hx : xs ≠ []) (hy : ys ≠ [])
    (hfx : ∀ e ∈ xs, '/' ∉ e) (hfy : ∀ e ∈ ys, '/' ∉ e)
    (h : joinSlash xs = joinSlash ys) : xs = ys := by
  have h1 := splitSlash_joinSlash xs hx hfx
  have h2 := splitSlash_joinSlash ys hy hfy
  rw [← h1, ← h2, h]

theorem joinSlash_ne_dot {l : List GoStr} (hl : l ≠ [])
    (hfree : ∀ e ∈ l, '/' ∉ e) (hne : ∀ e ∈ l, e ≠ ['.']) :
    joinSlash l ≠ ['.'] := by
  intro h
  have h1 := splitSlash_joinSlash l hl hfree
  rw [h] at h1
  have h2 : splitSlash ['.'] = [['.']] := by decide
  rw [h2] at h1
  exact hne ['.'] (by rw [← h1]; simp) rfl

theorem goJoin_eq_clean {a b : GoStr} (ha : a ≠ []) (hb : b ≠ []) :
    goJoin a b = goClean (a ++ '/' :: b) := by
  cases a with
  | nil => exact absurd rfl ha
  | cons c cs =>
    cases b with
    | nil => exact absurd rfl hb
    | cons d ds => rfl

theorem goClean_eq_of_ne (s : GoStr) (hs : s ≠ []) :
    goClean s = renderClean (isRooted s) (processElems (isRooted s) [] (splitSlash s)) := by
  unfold goClean
  rw [if_neg hs]

/-- A relative path cleans to `"."` or to some `".."` markers followed by
real segments. -/
theorem goClean_shape_relative (p : GoStr) (hrp : isRooted p = false) :
    goClean p = ['.'] ∨
    ∃ d R, (∀ e ∈ R, isRealSeg e ∧ '/' ∉ e) ∧ 0 < d + R.length ∧
      goClean p = joinSlash (dots d ++ R) := by
  unfold goClean
  split
  · left
    rfl
  · obtain ⟨X, D, hst, hX, hD⟩ :=
      processElems_shape (isRooted p) (splitSlash p) (splitSlash_no_slash p)
    rw [hrp] at hst
    rw [hrp, hst, renderClean_false_eq]
    split
    · left
      rfl
    · rename_i hrev
      right
      refine ⟨D, X.reverse, ?_, ?_, ?_⟩
      · intro e he
        exact hX e (List.mem_reverse.mp he)
      · by_contra hc
        have hD0 : D = 0 ∧ X.reverse.length = 0 := by omega
        have hX0 : X = [] := by
          have := hD0.2
          simpa using this
        exact hrev (by simp [hX0, hD0.1, dots])
      · congr 1
        simp [dots, List.reverse_append, List.reverse_replicate]

/-- Joining a proper prefix (a nonempty cleaned relative path made of real
segments) in front of any cleaned path never reproduces the original path. -/
theorem clean_absorb_ne (segs : List GoStr) (hne : segs ≠ [])
    (hreal : ∀ e ∈ segs, isRealSeg e ∧ '/' ∉ e) (p : GoStr) :
    goClean (joinSlash segs ++ '/' :: goClean p) ≠ p := by
  intro hr
  obtain ⟨e0, rest0, hsegs_eq⟩ : ∃ e rest, segs = e :: rest := by
    cases segs with
    | nil => exact absurd rfl hne
    | cons a b => exact ⟨a, b, rfl⟩
  have he0 : isRealSeg e0 ∧ '/' ∉ e0 := hreal e0 (by rw [hsegs_eq]; simp)
  have hjoin_ne : joinSlash segs ≠ [] := by
    rw [hsegs_eq]
    exact joinSlash_cons_ne_nil _ _ he0.1.1
  have hq_ne : goClean p ≠ [] := goClean_ne_nil p
  have hsIn_ne : joinSlash segs ++ '/' :: goClean p ≠ [] := by simp
  have hrootIn : isRooted (joinSlash segs ++ '/' :: goClean p) = false := by
    rw [isRooted_append _ _ hjoin_ne, hsegs_eq,
      isRooted_joinSlash_cons _ _ he0.1.1]
    exact isRooted_of_slashfree he0.1.1 he0.2
  have hsplitIn : splitSlash (joinSlash segs ++ '/' :: goClean p) =
      segs ++ splitSlash (goClean p) := by
    rw [splitSlash_append, splitSlash_joinSlash segs hne (fun e he => (hreal e he).2)]
  cases hrp : isRooted p with
  | true =>
    have h1 : isRooted (goClean (joinSlash segs ++ '/' :: goClean p)) = false := by
      rw [isRooted_goClean]
      exact hrootIn
    rw [hr, hrp] at h1
    cases h1
  | false =>
    rcases goClean_shape_relative p hrp with hdot | ⟨d, R, hRreal, hpos, hqeq⟩
    · -- q = "."
      have hq2 : splitSlash (goClean p) = [['.']] := by
        rw [hdot]
        decide
      have hstkr : processElems false []
          (splitSlash (joinSlash segs ++ '/' :: goClean p)) = segs.reverse := by
        rw [hsplitIn, processElems_append,
          processElems_reals false [] segs (fun e he => (hreal e he).1),
          List.append_nil, hq2]
        show pushElem false segs.reverse ['.'] = segs.reverse
        unfold pushElem
        rw [if_pos (Or.inr rfl)]
      have hreq : goClean (joinSlash segs ++ '/' :: goClean p) = joinSlash segs := by
        rw [goClean_eq_of_ne _ hsIn_ne, hrootIn, hstkr, renderClean_false_eq,
          List.reverse_reverse, if_neg hne]
      rw [hreq] at hr
      have hfix : goClean (joinSlash segs) = joinSlash segs := by
        have h3 := goClean_fixed 0 segs hreal (by
          simpa using List.length_pos.mpr hne)
        simpa [dots] using h3
      rw [← hr, hfix] at hdot
      exact joinSlash_ne_dot hne (fun e he => (hreal e he).2)
        (fun e he => (hreal e he).1.2.1) hdot
    · -- q = dots d ++ R
      have hql_ne : dots d ++ R ≠ [] := by
        intro h
        rcases List.append_eq_nil.mp h with ⟨h1, h2⟩
        subst h2
        have hd0 : d = 0 := by simpa [dots] using congrArg List.length h1
        simp [hd0] at hpos
      have hqfree : ∀ e ∈ dots d ++ R, '/' ∉ e := by
        intro e he
        rcases List.mem_append.mp he with h | h
        · have h2 : e = ['.', '.'] := List.eq_of_mem_replicate h
          subst h2
          decide
        · exact (hRreal e h).2
      have hq2 : splitSlash (goClean p) = dots d ++ R := by
        rw [hqeq]
        exact splitSlash_joinSlash _ hql_ne hqfree
      have hBne : ∀ e ∈ segs.reverse, e ≠ ['.', '.'] :=
        fun e he => (hreal e (List.mem_reverse.mp he)).1.2.2
      have hstkr : processElems false []
          (splitSlash (joinSlash segs ++ '/' :: goClean p)) =
          R.reverse ++
            (if d ≤ segs.length then segs.reverse.drop d
             else dots (d - segs.length)) := by
        rw [hsplitIn, processElems_append,
          processElems_reals false [] segs (fun e he => (hreal e he).1),
          List.append_nil, hq2, processElems_append,
          processElems_dots_real d segs.reverse hBne, List.length_reverse]
        exact processElems_reals false _ R (fun e he => (hRreal e he).1)
      by_cases hdle : d ≤ segs.length
      · -- the `".."`s pop into the prefix segments
        have hB'real : ∀ e ∈ (segs.reverse.drop d).reverse, isRealSeg e ∧ '/' ∉ e := by
          intro e he
          exact hreal e
            (List.mem_reverse.mp (List.mem_of_mem_drop (List.mem_reverse.mp he)))
        have hstk2 : processElems false []
            (splitSlash (joinSlash segs ++ '/' :: goClean p)) =
            R.reverse ++ segs.reverse.drop d := by
          rw [hstkr, if_pos hdle]
        have hrevL : (R.reverse ++ segs.reverse.drop d).reverse =
            (segs.reverse.drop d).reverse ++ R := by
          simp
        cases hLc : (segs.reverse.drop d).reverse ++ R with
        | nil =>
          have hreq : goClean (joinSlash segs ++ '/' :: goClean p) = ['.'] := by
            rw [goClean_eq_of_ne _ hsIn_ne, hrootIn, hstk2, renderClean_false_eq, hrevL, hLc,
              if_pos rfl]
          rw [hreq] at hr
          have hq3 : goClean p = ['.'] := by
            rw [← hr]
            decide
          rw [hqeq] at hq3
          refine joinSlash_ne_dot hql_ne hqfree ?_ hq3
          intro e he
          rcases List.mem_append.mp he with h | h
          · have h2 : e = ['.', '.'] := List.eq_of_mem_replicate h
            subst h2
            decide
          · exact (hRreal e h).1.2.1
        | cons x xs =>
          have hLne : (segs.reverse.drop d).reverse ++ R ≠ [] := by
            rw [hLc]
            simp
          have hreq : goClean (joinSlash segs ++ '/' :: goClean p) =
              joinSlash ((segs.reverse.drop d).reverse ++ R) := by
            rw [goClean_eq_of_ne _ hsIn_ne, hrootIn, hstk2, renderClean_false_eq, hrevL,
              if_neg hLne]
          have hLreal : ∀ e ∈ (segs.reverse.drop d).reverse ++ R,
              isRealSeg e ∧ '/' ∉ e := by
            intro e he
            rcases List.mem_append.mp he with h | h
            · exact hB'real e h
            · exact hRreal e h
          have hfix : goClean (joinSlash ((segs.reverse.drop d).reverse ++ R)) =
              joinSlash ((segs.reverse.drop d).reverse ++ R) := by
            have h3 := goClean_fixed 0 _ hLreal (by
              rw [hLc]
              simp)
            simpa [dots] using h3
          have hqL : goClean p = joinSlash ((segs.reverse.drop d).reverse ++ R) := by
            rw [← hr, hreq, hfix]
          have heq : dots d ++ R = (segs.reverse.drop d).reverse ++ R :=
            joinSlash_inj hql_ne hLne hqfree (fun e he => (hLreal e he).2)
              (hqeq.symm.trans hqL)
          have heq2 : dots d = (segs.reverse.drop d).reverse :=
            List.append_cancel_right heq
          cases hd0 : d with
          | zero =>
            rw [hd0] at heq2
            have hsegs0 : segs = [] := by
              have h4 : segs.reverse.drop 0 = segs.reverse := rfl
              have h5 := heq2.symm
              rw [h4] at h5
              simpa [dots] using h5
            exact hne hsegs0
          | succ n =>
            have hmem : ['.', '.'] ∈ dots (n + 1) := by simp [dots]
            rw [← hd0, heq2] at hmem
            exact (hB'real _ hmem).1.2.2 rfl
      · -- more `".."`s than prefix segments: leftovers survive
        have hk' : 0 < d - segs.length := by omega
        have hstk2 : processElems false []
            (splitSlash (joinSlash segs ++ '/' :: goClean p)) =
            R.reverse ++ dots (d - segs.length) := by
          rw [hstkr, if_neg hdle]
        have hrevL : (R.reverse ++ dots (d - segs.length)).reverse =
            dots (d - segs.length) ++ R := by
          simp [dots, List.reverse_append, List.reverse_replicate]
        have hLne : dots (d - segs.length) ++ R ≠ [] := by
          intro h
          rcases List.append_eq_nil.mp h with ⟨h1, _⟩
          have h4 : d - segs.length = 0 := by simpa [dots] using congrArg List.length h1
          omega
        have hfree' : ∀ e ∈ dots (d - segs.length) ++ R, '/' ∉ e := by
          intro e he
          rcases List.mem_append.mp he with h | h
          · have h2 : e = ['.', '.'] := List.eq_of_mem_replicate h
            subst h2
            decide
          · exact (hRreal e h).2
        have hreq : goClean (joinSlash segs ++ '/' :: goClean p) =
            joinSlash (dots (d - segs.length) ++ R) := by
          rw [goClean_eq_of_ne _ hsIn_ne, hrootIn, hstk2, renderClean_false_eq, hrevL,
            if_neg hLne]
        have hfix : goClean (joinSlash (dots (d - segs.length) ++ R)) =
            joinSlash (dots (d - segs.length) ++ R) :=
          goClean_fixed _ R hRreal (by omega)
        have hqL : goClean p = joinSlash (dots (d - segs.length) ++ R) := by
          rw [← hr, hreq, hfix]
        have heq : dots d ++ R = dots (d - segs.length) ++ R :=
          joinSlash_inj hql_ne hLne hqfree hfree' (hqeq.symm.trans hqL)
        have heq2 : dots d = dots (d - segs.length) :=
          List.append_cancel_right heq
        have h5 : d = d - segs.length := by
          simpa [dots] using congrArg List.length heq2
        have h6 : segs.length = 0 := by omega
        exact hne (List.length_eq_zero.mp h6)

end GoLib

namespace S3FS

/-!
## Remaining helper lemmas for the claims
-/

theorem insertKey_ne_nil {κ α : Type} [DecidableEq κ]
    (l : List (κ × α)) (k : κ) (v : α) : insertKey l k v ≠ [] := by
  cases l with
  | nil => simp [insertKey]
  | cons p rest =>
    obtain ⟨k0, w⟩ := p
    unfold insertKey
    split <;> simp

theorem applyOp_openF_remote (s : S3M) (path : GoStr) (flag : Nat) :
    (applyOp s (Op.openF path flag)).remote = s.remote := by
  simp only [applyOp]
  split
  · rename_i sh hres
    exact openFile_remote hres
  · rfl

theorem applyOp_mut_remote (s : S3M) (op : Op) (h : op.isMut = true) :
    (applyOp s op).remote = s.remote := by
  cases op with
  | write id p =>
    simp only [applyOp]
    split
    · rename_i sn hres
      exact write_remote hres
    · rfl
  | writeAt id p off =>
    simp only [applyOp]
    split
    · rename_i sn hres
      exact writeAt_remote hres
    · rfl
  | truncate id size =>
    simp only [applyOp]
    split
    · rename_i s2 hres
      exact truncate_remote hres
    · rfl
  | openF path flag => simp [Op.isMut] at h
  | sync id => simp [Op.isMut] at h
  | close id => simp [Op.isMut] at h
  | read id => simp [Op.isMut] at h

end S3FS

/-!
# The claims
-/

section Claims

open GoLib S3FS DirFS SubFS

/-- C1 (counterexample): the round trip `OpenFile(p, Create|RW); Write(buf);
Sync; Close; Open(p, RO); read to EOF` does NOT yield exactly `buf` for every
path and buffer.  With a pre-existing longer object at the key, the old tail
survives the partial overwrite (`[9]` comes back as `[9, 2]`); and with an
empty buffer on a fresh path nothing is uploaded, so the read-only reopen
fails NotFound. -/
theorem c1_round_trip_counterexample :
    roundTrip ⟨[("f".toList, [1, 2])], [], [], [], 0⟩ "f".toList [9] ≠ .ok [9] ∧
    roundTrip ⟨[("f".toList, [1, 2])], [], [], [], 0⟩ "f".toList [9] = .ok [9, 2] ∧
    roundTrip initS3 "f".toList [] ≠ .ok [] ∧
    roundTrip initS3 "f".toList [] = .error .notExist := by
  refine ⟨by decide, by decide, by decide, by decide⟩

/-- C1 (amended): for a NONEMPTY buffer and a path that is initially absent
from the bucket (and has no open-file state and a nonempty key), the round
trip `OpenFile(p, Create|RW); Write(buf); Sync; Close; Open(p, RO); read to
EOF` yields exactly `buf`: the staged writes are uploaded on `Sync` and
served back on subsequent reads. -/
theorem c1_round_trip_fresh (s : S3M) (p : GoStr) (buf : Bytes)
    (hstat : fsStat s.remote p = .error .notExist)
    (hreg : lookupKey s.files p = none)
    (hbuf : buf ≠ [])
    (hkey : toKey p false ≠ []) :
    roundTrip s p buf = .ok buf :=
  roundTrip_fresh s p buf hstat hreg hbuf hkey

/-- Witness for C1 at a concrete fresh state. -/
theorem c1_round_trip_fresh_witness :
    roundTrip initS3 "f".toList [9, 7] = .ok [9, 7] :=
  c1_round_trip_fresh initS3 "f".toList [9, 7] (by decide) (by decide)
    (by decide) (by decide)

/-- C2 (code bug): `s3FS.Stat` of a nested directory returns NotFound even
when the parent listing contains the directory's own marker.  The code
compares the first result's trailing-slash-stripped FULL key against the
queried BASENAME (`"a/b"` vs `"b"`), which can never match below the top
level, so the directory-synthesis fallback is dead code for every nested
path.  Here the bucket holds exactly the marker `a/b/` that
`MkdirAll("a/b")` creates (first conjunct: that marker's key really is
`toKey("a/b", true)`), yet `Stat("a/b")` fails NotFound, while the same
synthesis succeeds for the top-level `Stat("a")`. -/
theorem c2_nested_dir_stat_notfound :
    toKey "a/b".toList true = "a/b/".toList ∧
    lookupKey [("a/b/".toList, ([] : Bytes))] "a/b/".toList = some [] ∧
    fsStat [("a/b/".toList, ([] : Bytes))] "a/b".toList = .error .notExist ∧
    fsStat [("a/".toList, ([] : Bytes))] "a".toList = .ok ⟨"a/".toList, 0⟩ := by
  refine ⟨by decide, by decide, by decide, by decide⟩

/-- C3: between `OpenFile` and the first `Sync` or last `Close`, no `Write`,
`WriteAt` or `Truncate` through any handle changes the remote bucket: after
an `OpenFile` and any sequence of such mutation operations, the remote
object map is exactly the pre-open one (so a remote `StatObject` of the key
returns its pre-open state, or NotFound). -/
theorem c3_no_remote_mutation_before_sync (s : S3M) (path : GoStr) (flag : Nat)
    (ops : List Op) (hmut : ∀ op ∈ ops, op.isMut = true) :
    (applyOps (applyOp s (Op.openF path flag)) ops).remote = s.remote := by
  have hgen : ∀ (t : S3M) (ops2 : List Op), (∀ op ∈ ops2, op.isMut = true) →
      (applyOps t ops2).remote = t.remote := by
    intro t ops2 hm
    induction ops2 generalizing t with
    | nil => rfl
    | cons o rest ih =>
      show (applyOps (applyOp t o) rest).remote = _
      rw [ih (applyOp t o) (fun x hx => hm x (List.mem_cons_of_mem o hx)),
        applyOp_mut_remote t o (hm o (by simp))]
  rw [hgen _ ops hmut, applyOp_openF_remote s path flag]

/-- Witness for C3: opening a fresh file and truncating it leaves the
(empty) bucket untouched. -/
theorem c3_no_remote_mutation_witness :
    (applyOps (applyOp initS3 (Op.openF "f".toList 66))
      [Op.truncate 0 5, Op.write 0 [1, 2]]).remote = initS3.remote :=
  c3_no_remote_mutation_before_sync initS3 "f".toList 66
    [Op.truncate 0 5, Op.write 0 [1, 2]] (by decide)

/-- C4 (counterexample): it is NOT the case that a `file` is in the registry
only while it has an open handle or a pending staging file.  After opening
and closing a fresh path, the registry still holds its `file` — with no
handles and no staging file — because `file.Close` never deletes the entry
from `fsys.files`. -/
theorem c4_registry_counterexample :
    ¬ (∀ p f, lookupKey (applyOps initS3
        [Op.openF "f".toList 66, Op.close 0]).files p = some f →
      (f.handles ≠ [] ∨ f.stagingFile = true)) := by
  intro h
  have h2 := h "f".toList ⟨"f".toList, false, false, []⟩ (by decide)
  rcases h2 with h2 | h2
  · exact h2 rfl
  · cases h2

/-- C4 (amended): the registry only ever grows — every operation preserves
registry membership, so a `file` is present from its first open onward — and
when the last handle of a path closes, `file.Close` flushes the staging
bytes if dirty and removes the staging file, but the `file` remains
registered with an empty handle set and no staging file. -/
theorem c4_registry_persistence :
    (∀ (s : S3M) (op : Op) (q : GoStr),
      (lookupKey s.files q).isSome = true →
      (lookupKey (applyOp s op).files q).isSome = true) ∧
    (∀ (s : S3M) (id : Nat) (h : HandleRec) (f : FileM) (s' : S3M),
      getLive s id = .ok (h, f) → f.handles.erase id = [] →
      closeHandle s id = .ok s' →
      ∃ g : FileM, lookupKey s'.files h.path = some g ∧ g.handles = [] ∧
        g.stagingFile = false ∧ g.dirty = false ∧ g.key = f.key ∧
        (f.dirty = true →
          lookupKey s'.remote f.key = some ((lookupKey s.staging f.key).getD [])) ∧
        (f.stagingFile = true → lookupKey s'.staging f.key = none)) :=
  ⟨fun s op q hq => applyOp_mono s op q hq,
   fun _ _ _ _ _ hg he hres => closeHandle_last hg he hres⟩

/-- Witness for C4 at a concrete state: registry membership survives an
unrelated operation, and the concrete last close keeps the file registered
with cleared staging. -/
theorem c4_registry_persistence_witness :
    (lookupKey (applyOp (applyOps initS3 [Op.openF "f".toList 66])
      (Op.read 0)).files "f".toList).isSome = true ∧
    (∃ g : FileM,
      lookupKey
        (⟨[], [],
          [("f".toList, ⟨"f".toList, false, false, []⟩)], [], 1⟩ : S3M).files
        "f".toList = some g ∧
      g.handles = [] ∧ g.stagingFile = false ∧ g.dirty = false ∧
      g.key = (⟨"f".toList, true, false, [0]⟩ : FileM).key ∧
      ((⟨"f".toList, true, false, [0]⟩ : FileM).dirty = true →
        lookupKey ([] : List (GoStr × Bytes)) "f".toList =
          some ((lookupKey (applyOps initS3
            [Op.openF "f".toList 66]).staging "f".toList).getD [])) ∧
      ((⟨"f".toList, true, false, [0]⟩ : FileM).stagingFile = true →
        lookupKey ([] : List (GoStr × Bytes)) "f".toList = none)) :=
  ⟨c4_registry_persistence.1 (applyOps initS3 [Op.openF "f".toList 66])
      (Op.read 0) "f".toList (by decide),
   c4_registry_persistence.2 (applyOps initS3 [Op.openF "f".toList 66]) 0
      ⟨"f".toList, false, 0⟩ ⟨"f".toList, true, false, [0]⟩
      ⟨[], [], [("f".toList, ⟨"f".toList, false, false, []⟩)], [], 1⟩
      (by decide) (by decide) (by decide)⟩

/-- C5 (counterexample): when a handle close fails, `s3FS.Close` does NOT
still attempt to remove the staging root — it returns the error first, and
the remaining handles stay open too. -/
theorem c5_close_counterexample :
    (fsClose [[some Err.permission, none]]).stagingRemoved = false ∧
    (fsClose [[some Err.permission, none]]).result = .error .permission ∧
    (fsClose [[some Err.permission, none]]).closedHandles = 0 := by
  refine ⟨by decide, by decide, by decide⟩

/-- C5 (amended): `FS.Close` always cancels the root scope; when every
handle close succeeds it closes them all and removes the staging root; but
on the first handle-close error (in iteration order) it returns that error
immediately, leaving the staging root in place (and later handles
unclosed). -/
theorem c5_close_behaviour (files : List (List (Option Err))) :
    (fsClose files).cancelled = true ∧
    (firstCloseErr files = none →
      fsClose files = ⟨true, files.flatten.length, true, .ok ()⟩) ∧
    (∀ e, firstCloseErr files = some e →
      (fsClose files).result = .error e ∧
      (fsClose files).stagingRemoved = false) := by
  have hspec := closeFilesSeq_spec files
  unfold fsClose
  rcases hc : closeFilesSeq files with ⟨n, oe⟩
  rw [hc] at hspec
  cases oe with
  | none =>
    refine ⟨rfl, ?_, ?_⟩
    · intro _
      have h2 : n = files.flatten.length := hspec.2 rfl
      rw [h2]
    · intro e he
      rw [← hspec.1] at he
      cases he
  | some e0 =>
    refine ⟨rfl, ?_, ?_⟩
    · intro h
      rw [← hspec.1] at h
      cases h
    · intro e he
      rw [← hspec.1] at he
      cases he
      exact ⟨rfl, rfl⟩

/-- Witness for C5 on a concrete registry: the failing close surfaces the
first error without removing the staging root. -/
theorem c5_close_behaviour_witness :
    firstCloseErr [[none, some Err.aborted]] = some Err.aborted ∧
    (fsClose [[none, some Err.aborted]]).result = .error .aborted ∧
    (fsClose [[none, some Err.aborted]]).stagingRemoved = false :=
  ⟨by decide,
   (c5_close_behaviour [[none, some Err.aborted]]).2.2 Err.aborted (by decide)⟩

/-- C6 (counterexample): `dirfs.safePath` uses a raw `strings.HasPrefix`
check against the root, so a sibling directory whose name extends the root
name passes the check: from root `/tmp/stage`, the path `../stage-evil/x`
cleans to `/tmp/stage-evil/x`, which is accepted although it lies outside
the root. -/
theorem c6_safepath_counterexample :
    safePath "/tmp/stage".toList "../stage-evil/x".toList =
      .ok "/tmp/stage-evil/x".toList ∧
    underRoot "/tmp/stage".toList "/tmp/stage-evil/x".toList = false := by
  refine ⟨by decide, by decide⟩

/-- C6 (amended): `safePath` accepts exactly the joined-and-cleaned paths
that have the root as a string prefix (returning them), and rejects the
rest with a permission error; but a string prefix does not mean
containment under the root: a sibling path sharing the root's name as a
prefix is accepted even though it is outside the root. -/
theorem c6_safepath_behaviour :
    (∀ root p a, safePath root p = .ok a →
      a = goClean (goJoin root p) ∧ goHasPref a root = true) ∧
    (∀ root p, goHasPref (goClean (goJoin root p)) root = false →
      safePath root p = .error .permission) ∧
    (∃ root p a, safePath root p = .ok a ∧ underRoot root a = false) := by
  refine ⟨?_, ?_, ?_⟩
  · intro root p a h
    unfold safePath at h
    by_cases hp : goHasPref (goClean (goJoin root p)) root = true
    · rw [if_pos hp] at h
      cases h
      exact ⟨rfl, hp⟩
    · rw [if_neg hp] at h
      cases h
  · intro root p h
    unfold safePath
    rw [if_neg (by rw [h]; exact Bool.false_ne_true)]
  · exact ⟨"/tmp/stage".toList, "../stage-evil/x".toList,
      "/tmp/stage-evil/x".toList, by decide, by decide⟩

/-- Witness for C6 at a concrete accepted path: `safePath` returns the
cleaned join and the result has the root as a prefix. -/
theorem c6_safepath_behaviour_witness :
    safePath "/tmp/stage".toList "a/b".toList = .ok "/tmp/stage/a/b".toList ∧
    "/tmp/stage/a/b".toList =
      goClean (goJoin "/tmp/stage".toList "a/b".toList) ∧
    goHasPref "/tmp/stage/a/b".toList "/tmp/stage".toList = true :=
  ⟨by decide,
   c6_safepath_behaviour.1 "/tmp/stage".toList "a/b".toList
     "/tmp/stage/a/b".toList (by decide)⟩

/-- C7: xattr round trips on a writable view with distinct pending-change
keys: `Set(n,v); Sync; Get(n)` returns `v`; `Remove(n); Sync; Get(n)` fails
with no-such-attr; and names are case-insensitive — `Set(n,v)` followed by
`Get(n')` for any `n'` with the same lowercase folding returns `v`. -/
theorem c7_xattr_semantics (a : S3AttrsM) (meta : List (GoStr × GoStr))
    (n v : GoStr) (hro : a.readOnly = false)
    (hnod : (a.changes.map Prod.fst).Nodup) :
    (∀ a2, attrsSet a n v = .ok a2 →
      attrsGet (attrsSync a2 meta).1 n = .ok v) ∧
    (∀ a2, attrsRemove a n = .ok a2 →
      attrsGet (attrsSync a2 meta).1 n = .error .noSuchAttr) ∧
    (∀ a2 n', goToLower n' = goToLower n →
      attrsSet a n v = .ok a2 → attrsGet a2 n' = .ok v) := by
  have hif : ¬ a.readOnly = true := by rw [hro]; exact Bool.false_ne_true
  have hset : attrsSet a n v =
      .ok { a with changes := insertKey a.changes (goToLower n) ⟨v, false⟩ } := by
    unfold attrsSet
    rw [if_neg hif]
  have hrem : attrsRemove a n =
      .ok { a with changes := insertKey a.changes (goToLower n) ⟨[], true⟩ } := by
    unfold attrsRemove
    rw [if_neg hif]
  refine ⟨?_, ?_, ?_⟩
  · intro a2 h
    rw [hset] at h
    cases h
    simp only [attrsSync]
    rw [if_neg (insertKey_ne_nil _ _ _)]
    simp only [attrsGet, lookupKey]
    rw [lookupKey_applyChanges _ _ _ (nodupKeys_insertKey hnod),
      lookupKey_insertKey_self]
    rfl
  · intro a2 h
    rw [hrem] at h
    cases h
    simp only [attrsSync]
    rw [if_neg (insertKey_ne_nil _ _ _)]
    simp only [attrsGet, lookupKey]
    rw [lookupKey_applyChanges _ _ _ (nodupKeys_insertKey hnod),
      lookupKey_insertKey_self]
    rfl
  · intro a2 n' hn h
    rw [hset] at h
    cases h
    simp only [attrsGet, hn]
    rw [lookupKey_insertKey_self]
    rfl

/-- Witness for C7 on a concrete empty view: set, remove and case-folded
lookups behave as stated. -/
theorem c7_xattr_semantics_witness :
    attrsGet (attrsSync
      (⟨[], [("x".toList, ⟨"1".toList, false⟩)], false⟩ : S3AttrsM) []).1
      "X".toList = .ok "1".toList ∧
    attrsGet (attrsSync
      (⟨[], [("x".toList, ⟨[], true⟩)], false⟩ : S3AttrsM) []).1
      "X".toList = .error .noSuchAttr ∧
    attrsGet (⟨[], [("x".toList, ⟨"1".toList, false⟩)], false⟩ : S3AttrsM)
      "x".toList = .ok "1".toList :=
  ⟨(c7_xattr_semantics ⟨[], [], false⟩ [] "X".toList "1".toList rfl
      (by decide)).1
    ⟨[], [("x".toList, ⟨"1".toList, false⟩)], false⟩ (by decide),
   (c7_xattr_semantics ⟨[], [], false⟩ [] "X".toList "1".toList rfl
      (by decide)).2.1
    ⟨[], [("x".toList, ⟨[], true⟩)], false⟩ (by decide),
   (c7_xattr_semantics ⟨[], [], false⟩ [] "X".toList "1".toList rfl
      (by decide)).2.2
    ⟨[], [("x".toList, ⟨"1".toList, false⟩)], false⟩ "x".toList (by decide)
    (by decide)⟩

theorem filter_map_all {α β : Type} (p : β → Bool) (f : α → β) (l : List α)
    (h : ∀ a, p (f a) = true) : (l.map f).filter p = l.map f := by
  induction l with
  | nil => rfl
  | cons a as ih => simp [List.filter_cons, h a, ih]

theorem filter_map_none {α β : Type} (p : β → Bool) (f : α → β) (l : List α)
    (h : ∀ a, p (f a) = false) : (l.map f).filter p = [] := by
  induction l with
  | nil => rfl
  | cons a as ih => simp [List.filter_cons, h a, ih]

/-- C8 (counterexample): the archive does NOT contain one directory header
per unique directory path of the subtree.  The rootward dirname walk stops
at the first already-recorded directory, so with the explicit marker
`r/a/b/` listed before the object `r/a/b/c/x`, the chain walk from `a/b/c`
stops at `a/b` and the directory `a` never receives a header, although it
is on the dirname chain. -/
theorem c8_archive_counterexample :
    "a".toList ∈ specDirs "r/".toList
      [⟨"r/a/b/".toList, 0⟩, ⟨"r/a/b/c/x".toList, 3⟩] ∧
    "a".toList ∉ dirNames (archiveEntries "r/".toList
      [⟨"r/a/b/".toList, 0⟩, ⟨"r/a/b/c/x".toList, 3⟩]) := by
  refine ⟨by decide, by decide⟩

/-- C8 (amended): the archive is all the directory headers (TypeDir, mode
`0o755`, size 0) in lexicographically sorted order, without duplicates,
followed by exactly one file entry per non-prefix non-marker object of the
listing, named relative to the root — but the directory set is the one
gathered by the marker-shadowed chain walk, not every unique directory
path. -/
theorem c8_archive_structure (pre : GoStr) (listing : List ObjInfoM) :
    archiveEntries pre listing =
      dirEntriesOf (archiveEntries pre listing) ++
        fileEntriesOf (archiveEntries pre listing) ∧
    StrSorted (dirNames (archiveEntries pre listing)) ∧
    (dirNames (archiveEntries pre listing)).Nodup ∧
    fileEntriesOf (archiveEntries pre listing) =
      (listing.filter (isFileObj pre)).map
        (fun o => ⟨goTrimPref o.key pre, .file, 0o644, o.size⟩) ∧
    (∀ e ∈ archiveEntries pre listing, e.typeflag = .dir →
      e.mode = 0o755 ∧ e.size = 0) := by
  have heq := archiveEntries_eq pre listing
  have hD : dirEntriesOf (archiveEntries pre listing) =
      (sortStr (collectListing pre listing).2).map
        (fun d => ⟨d, .dir, 0o755, 0⟩) := by
    rw [heq]
    unfold dirEntriesOf
    rw [List.filter_append, filter_map_all _ _ _ (fun d => rfl),
      filter_map_none _ _ _ (fun o => rfl), List.append_nil]
  have hF : fileEntriesOf (archiveEntries pre listing) =
      (listing.filter (isFileObj pre)).map
        (fun o => ⟨goTrimPref o.key pre, .file, 0o644, o.size⟩) := by
    rw [heq]
    unfold fileEntriesOf
    rw [List.filter_append, filter_map_none _ _ _ (fun d => rfl),
      filter_map_all _ _ _ (fun o => rfl), List.nil_append]
  have hN : dirNames (archiveEntries pre listing) =
      sortStr (collectListing pre listing).2 := by
    unfold dirNames
    show (dirEntriesOf (archiveEntries pre listing)).map TarHeader.name = _
    rw [hD, List.map_map]
    show (sortStr (collectListing pre listing).2).map id = _
    exact List.map_id _
  refine ⟨?_, ?_, ?_, hF, ?_⟩
  · rw [hD, hF, heq]
  · rw [hN]
    exact sortStr_sorted _
  · rw [hN]
    exact sortStr_nodup _ (collect_dirs_nodup pre listing ([], []) List.nodup_nil)
  · intro e he hdir
    rw [heq] at he
    rcases List.mem_append.mp he with h | h
    · rcases List.mem_map.mp h with ⟨d, _, hd⟩
      subst hd
      exact ⟨rfl, rfl⟩
    · rcases List.mem_map.mp h with ⟨o, _, ho⟩
      rw [← ho] at hdir
      simp at hdir

/-- C9: in every state reachable from the initial filesystem by any
sequence of open, write, write-at, truncate, sync and close operations,
a registered `file` whose dirty flag is set has a staging file — even
though `Truncate` sets dirty unconditionally, it does so only after
`getStagingFile` has ensured the staging file exists. -/
theorem c9_dirty_implies_staging (ops : List Op) (p : GoStr) (f : FileM)
    (hf : lookupKey (applyOps initS3 ops).files p = some f)
    (hd : f.dirty = true) : f.stagingFile = true :=
  (applyOps_inv initS3 ops (fun _ _ h => by cases h) p f hf).2 hd

/-- Witness for C9: after opening a fresh file and writing a byte, the
registered file is dirty and indeed has a staging file. -/
theorem c9_dirty_implies_staging_witness :
    lookupKey (applyOps initS3 [Op.openF "f".toList 66, Op.write 0 [1]]).files
      "f".toList = some ⟨"f".toList, true, true, [0]⟩ ∧
    (⟨"f".toList, true, true, [0]⟩ : FileM).dirty = true ∧
    (⟨"f".toList, true, true, [0]⟩ : FileM).stagingFile = true :=
  ⟨by decide, by decide,
   c9_dirty_implies_staging [Op.openF "f".toList 66, Op.write 0 [1]]
     "f".toList ⟨"f".toList, true, true, [0]⟩ (by decide) (by decide)⟩

/-- C10: for a sub-filesystem with a non-trivial prefix (every
slash-separated segment of the prefix is a real name, so the prefix is not
erased by cleaning), `OpenFile(p)` and `Open(p)` address DIFFERENT parent
paths for every `p`: `Open` forwards `p` unchanged while `OpenFile` joins
it under the prefix, and the join of a nonempty real prefix with any
cleaned path can never clean back to the original path. -/
theorem c10_sub_open_openfile_mismatch (pre p : GoStr)
    (hpre : ∀ e ∈ splitSlash pre, isRealSeg e) :
    subOpenFile pre p ≠ subOpen pre p := by
  have hpre_ne : pre ≠ [] := by
    intro h
    subst h
    have h2 := hpre [] (by simp [splitSlash])
    exact h2.1 rfl
  show goJoin pre (goClean p) ≠ p
  rw [goJoin_eq_clean hpre_ne (goClean_ne_nil p)]
  have h3 := clean_absorb_ne (splitSlash pre) (splitSlash_ne_nil pre)
    (fun e he => ⟨hpre e he, splitSlash_no_slash pre e he⟩) p
  rw [joinSlash_splitSlash] at h3
  exact h3

/-- Witness for C10 at a concrete prefix and path: `OpenFile` resolves
`sub/x` on the parent while `Open` forwards `x`. -/
theorem c10_sub_open_openfile_mismatch_witness :
    subOpenFile "sub".toList "x".toList ≠ subOpen "sub".toList "x".toList ∧
    subOpenFile "sub".toList "x".toList = "sub/x".toList ∧
    subOpen "sub".toList "x".toList = "x".toList :=
  ⟨c10_sub_open_openfile_mismatch "sub".toList "x".toList (by
      intro e he
      rw [show splitSlash "sub".toList = ["sub".toList] from by decide] at he
      rcases List.mem_singleton.mp he with rfl
      exact ⟨by decide, by decide, by decide⟩),
   by decide, by decide⟩
